import Mathlib

/-!
Verification of the JSON store of the sops secrets tool
(`stores/json/store.go`) against its natural-language specification.

The Go code is shallowly embedded:

* Go `interface` values living in the tree model (`sops.TreeBranch`,
  `[]interface{}`, scalars, `sops.Comment`) become the inductive `GoVal`.
  A Go `float64` scalar is represented by the decimal literal text the
  tokenizer read (Go's `strconv` shortest-round-trip formatting makes
  parse-then-format the identity on such literals, which the model
  reflects by keeping the literal itself).  Go byte strings are modeled
  as `List Char` (valid UTF-8).
* `encoding/json`'s streaming tokenizer (`Decoder.Token`) becomes the
  state machine `ntAux`/`nextToken`: a stack of container states, with
  commas and colons consumed and validated internally, `io.EOF` as the
  distinguished error `GoErr.eof`, and string/number literal scanning
  matching `encoding/json`'s scanner (escapes, `\u` with surrogate-pair
  handling and replacement characters, control-character rejection).
* Fallible Go functions return `DRes`/`GoResult`; a Go panic is the
  distinguished outcome `GoResult.panicked`.
-/

set_option maxHeartbeats 2000000
set_option linter.unusedVariables false
set_option linter.unreachableTactic false

namespace SopsJson

/-! ## Characters and small helpers -/

/-- The character `{` (written via `Char.ofNat`). -/
def lbraceC : Char := Char.ofNat 123

/-- The character `}` (written via `Char.ofNat`). -/
def rbraceC : Char := Char.ofNat 125

/-- Whitespace, as in `encoding/json`'s `isSpace`. -/
def isSpaceC (c : Char) : Bool := c = ' ' || c = '\t' || c = '\r' || c = '\n'

/-- A list of whitespace characters only. -/
def wsOnlyL (l : List Char) : Bool := l.all isSpaceC

def isDigitC (c : Char) : Bool := '0' ≤ c && c ≤ '9'

def hexValC (c : Char) : Option Nat :=
  let n := c.toNat
  if 48 ≤ n && n ≤ 57 then some (n - 48)
  else if 97 ≤ n && n ≤ 102 then some (n - 87)
  else if 65 ≤ n && n ≤ 70 then some (n - 55)
  else none

def hex4C (a b c d : Char) : Option Nat := do
  let va ← hexValC a
  let vb ← hexValC b
  let vc ← hexValC c
  let vd ← hexValC d
  return ((va * 16 + vb) * 16 + vc) * 16 + vd

/-! ## The tree model

`sops.TreeBranch` is a list of `sops.TreeItem`; a `TreeItem` is a pair of
`interface{}` key and `interface{}` value.  The value universe actually
reachable in this store is: `string`, `float64` (kept as its literal
text, see the header comment), `bool`, `nil`, nested `sops.TreeBranch`,
`[]interface{}`, and `sops.Comment`.  Keys are the same universe (the
encoder inspects them dynamically). -/

inductive GoVal where
  | str (s : String)
  | num (lit : List Char)
  | bool (b : Bool)
  | null
  | branch (items : List (GoVal × GoVal))
  | arr (elems : List GoVal)
  | comment (text : String)

/-- `sops.TreeItem`: a (Key, Value) pair of dynamic values. -/
abbrev TreeItem := GoVal × GoVal

/-- `sops.TreeBranch`. -/
abbrev TreeBranch := List TreeItem

/-- `sops.TreeBranches`. -/
abbrev TreeBranches := List TreeBranch

/-! ## Tokens, errors, results -/

/-- A token returned by the model of `json.Decoder.Token`.  Go returns
`json.Delim` for the four brackets and `string`/`float64`/`bool`/`nil`
for scalars. -/
inductive Tok where
  | lbrace
  | rbrace
  | lbrack
  | rbrack
  | str (s : String)
  | num (lit : List Char)
  | bool (b : Bool)
  | null
deriving DecidableEq

/-- Error values.  Go errors are modeled structurally: `eof` is `io.EOF`,
`endOfObject` is the sentinel `errEndOfObject`, `synErr` covers
`json.SyntaxError`s, `typeNum` is a `json.UnmarshalTypeError` whose
`Value` field is `"number"` (carrying `Struct` and `Field`), `typeOther`
any other `UnmarshalTypeError`, `expectedObjectKey` the store's
"Expected JSON object key, got %s of type %T instead" error (carrying
the offending token; `none` is Go's `nil` key from `io.EOF`),
`wrap`/`errorMsg` the `fmt.Errorf` wrappers. -/
inductive GoErr where
  | eof
  | outOfFuel
  | endOfObject
  | synErr (msg : String)
  | expectedObjectKey (t : Option Tok)
  | expectedObjectStartDelim (t : Tok)
  | expectedObjectStart (t : Option Tok)
  | typeNum (inStruct inField : String)
  | typeOther (msg : String)
  | metadataNotFound
  | errorMsg (msg : String)
  | wrap (ctx : String) (e : GoErr)
deriving DecidableEq

/-- The tokenizer's state, mirroring `encoding/json`'s `tokenState`:
where we are inside the current container. -/
inductive TkState where
  | top
  | arrS
  | arrV
  | arrC
  | objS
  | objKey
  | objColon
  | objV
  | objAfter
deriving DecidableEq

/-- The model of `json.Decoder`'s mutable state: remaining input, the
stack of enclosing container states (`tokenStack`), and the current
`tokenState`. -/
structure DecState where
  rem : List Char
  stk : List TkState
  ts : TkState
deriving DecidableEq

/-- Result of a decoding step: Go's `(value, err)` pair together with
the decoder state after the call (the Go decoder is shared and
mutable, so errors also leave a state behind). -/
inductive DRes (α : Type) where
  | ok (a : α) (st : DecState)
  | err (e : GoErr) (st : DecState)

/-- Result of a store operation: a value, an error value, or a Go
runtime panic. -/
inductive GoResult (α : Type) where
  | ok (a : α)
  | error (e : GoErr)
  | panicked (msg : String)

/-! ## String literal scanning

The model of `encoding/json`'s string unquoting: escapes (including
`\u` with surrogate pairs; invalid surrogate halves become U+FFFD as in
Go's `unquoteChar`), rejection of raw control characters. -/

def unescapeC (c : Char) : Option Char :=
  if c = '"' then some '"'
  else if c = '\\' then some '\\'
  else if c = '/' then some '/'
  else if c = 'b' then some (Char.ofNat 8)
  else if c = 'f' then some (Char.ofNat 12)
  else if c = 'n' then some '\n'
  else if c = 'r' then some '\r'
  else if c = 't' then some '\t'
  else none

mutual

def lexStrAux (acc : List Char) : List Char → Except GoErr (String × List Char)
  | '"' :: cs => .ok (String.mk acc.reverse, cs)
  | '\\' :: 'u' :: a :: b :: c2 :: d :: cs3 =>
    (match hex4C a b c2 d with
    | none => .error (.synErr "invalid character in \\u hexadecimal escape")
    | some n =>
      if 0xD800 ≤ n ∧ n < 0xDC00 then lexStrHigh acc n cs3
      else if 0xDC00 ≤ n ∧ n < 0xE000 then lexStrAux (Char.ofNat 0xFFFD :: acc) cs3
      else lexStrAux (Char.ofNat n :: acc) cs3)
  | '\\' :: e :: cs2 =>
    (match unescapeC e with
    | some ch => lexStrAux (ch :: acc) cs2
    | none => .error (.synErr "invalid character in string escape code"))
  | c :: cs =>
    if c.toNat < 0x20 then .error (.synErr "invalid character in string literal")
    else lexStrAux (c :: acc) cs
  | [] => .error (.synErr "unexpected end of JSON input")

/-- Continuation after a high surrogate `\uXXXX` (value `n`): a
following low-surrogate escape combines with it; anything else turns
the pending half into U+FFFD, as in Go's `unquoteChar`, and processing
continues with the same rules as `lexStrAux` (inlined here so the
recursion stays structural). -/
def lexStrHigh (acc : List Char) (n : Nat) : List Char → Except GoErr (String × List Char)
  | '\\' :: 'u' :: a2 :: b2 :: c3 :: d2 :: cs4 =>
    (match hex4C a2 b2 c3 d2 with
    | none => .error (.synErr "invalid character in \\u hexadecimal escape")
    | some m =>
      if 0xDC00 ≤ m ∧ m < 0xE000 then
        lexStrAux (Char.ofNat (0x10000 + (n - 0xD800) * 0x400 + (m - 0xDC00)) :: acc) cs4
      else if 0xD800 ≤ m ∧ m < 0xDC00 then lexStrHigh (Char.ofNat 0xFFFD :: acc) m cs4
      else lexStrAux (Char.ofNat m :: (Char.ofNat 0xFFFD :: acc)) cs4)
  | '"' :: cs => .ok (String.mk (Char.ofNat 0xFFFD :: acc).reverse, cs)
  | '\\' :: e :: cs2 =>
    (match unescapeC e with
    | some ch => lexStrAux (ch :: (Char.ofNat 0xFFFD :: acc)) cs2
    | none => .error (.synErr "invalid character in string escape code"))
  | c :: cs =>
    if c.toNat < 0x20 then .error (.synErr "invalid character in string literal")
    else lexStrAux (c :: (Char.ofNat 0xFFFD :: acc)) cs
  | [] => .error (.synErr "unexpected end of JSON input")

end

/-! ## Number literal scanning -/

def takeDigits : List Char → List Char × List Char
  | c :: cs =>
    if isDigitC c then
      let (ds, r) := takeDigits cs
      (c :: ds, r)
    else ([], c :: cs)
  | [] => ([], [])

/-- Scan an optional exponent part; `lit` is what was scanned so far. -/
def lexNumExp (lit : List Char) (cs : List Char) : Except GoErr (List Char × List Char) :=
  match cs with
  | c :: r =>
    if c = 'e' ∨ c = 'E' then
      let (sgn, r1) : List Char × List Char :=
        match r with
        | s :: r2 => if s = '+' ∨ s = '-' then ([s], r2) else ([], r)
        | [] => ([], [])
      match takeDigits r1 with
      | ([], _) => .error (.synErr "invalid character in exponent of numeric literal")
      | (es, r2) => .ok (lit ++ c :: (sgn ++ es), r2)
    else .ok (lit, cs)
  | [] => .ok (lit, [])

/-- Scan a JSON number literal, returning its text and the rest.  The
scan mirrors `encoding/json`'s number states: optional minus, an
integer digit run, an optional fraction (requiring a digit), an
optional exponent (requiring a digit). -/
def lexNum (cs : List Char) : Except GoErr (List Char × List Char) :=
  let (sgn, cs1) : List Char × List Char :=
    match cs with
    | c :: r => if c = '-' then (['-'], r) else ([], cs)
    | [] => ([], [])
  -- integer part: `0` alone, or a nonzero digit followed by a digit run
  match (match cs1 with
         | c :: r =>
           if c = '0' then (['0'], r)
           else if isDigitC c then takeDigits cs1
           else ([], cs1)
         | [] => ([], [])) with
  | ([], _) => .error (.synErr "invalid number literal")
  | (ds, cs2) =>
    match cs2 with
    | c :: r =>
      if c = '.' then
        match takeDigits r with
        | ([], _) => .error (.synErr "invalid character after decimal point in numeric literal")
        | (fs, cs3) => lexNumExp (sgn ++ ds ++ '.' :: fs) cs3
      else lexNumExp (sgn ++ ds) cs2
    | [] => .ok (sgn ++ ds, [])

/-! ## The token state machine (`json.Decoder.Token`) -/

/-- `tokenValueAllowed`: states at which a value may begin. -/
def valueAllowedB : TkState → Bool
  | .top => true
  | .arrS => true
  | .arrC => true
  | .objV => true
  | _ => false

/-- `tokenValueEnd`: the state after a value has been read. -/
def valueEndS : TkState → TkState
  | .arrS => .arrV
  | .arrC => .arrV
  | .objV => .objAfter
  | s => s

/-- A `tokenError`: Go's "invalid character ... " `SyntaxError`. -/
def tokErrAt (c : Char) (cs : List Char) (stk : List TkState) (ts : TkState) : DRes Tok :=
  .err (.synErr ("invalid character " ++ String.mk [c])) ⟨c :: cs, stk, ts⟩

/-- The core of the `json.Decoder.Token` model.  Whitespace is skipped;
`:` and `,` are consumed (and validated against the state) without
being returned; brackets push and pop the container stack; scalars are
scanned with the literal scanners above.  At end of input it returns
`io.EOF` whatever the state, as Go's `Decoder.Token` does. -/
def ntAux : List Char → List TkState → TkState → DRes Tok
  | [], stk, ts => .err .eof ⟨[], stk, ts⟩
  | c :: cs, stk, ts =>
    if isSpaceC c then ntAux cs stk ts
    else if c = '[' then
      if valueAllowedB ts then .ok .lbrack ⟨cs, ts :: stk, .arrS⟩ else tokErrAt c cs stk ts
    else if c = ']' then
      if ts = .arrS ∨ ts = .arrV then
        match stk with
        | p :: stk2 => .ok .rbrack ⟨cs, stk2, valueEndS p⟩
        | [] => .err (.synErr "token stack underflow") ⟨cs, [], ts⟩
      else tokErrAt c cs stk ts
    else if c = lbraceC then
      if valueAllowedB ts then .ok .lbrace ⟨cs, ts :: stk, .objS⟩ else tokErrAt c cs stk ts
    else if c = rbraceC then
      if ts = .objS ∨ ts = .objAfter then
        match stk with
        | p :: stk2 => .ok .rbrace ⟨cs, stk2, valueEndS p⟩
        | [] => .err (.synErr "token stack underflow") ⟨cs, [], ts⟩
      else tokErrAt c cs stk ts
    else if c = ':' then
      if ts = .objColon then ntAux cs stk .objV else tokErrAt c cs stk ts
    else if c = ',' then
      if ts = .arrV then ntAux cs stk .arrC
      else if ts = .objAfter then ntAux cs stk .objKey
      else tokErrAt c cs stk ts
    else if c = '"' then
      if ts = .objS ∨ ts = .objKey then
        match lexStrAux [] cs with
        | .ok (s, cs2) => .ok (.str s) ⟨cs2, stk, .objColon⟩
        | .error e => .err e ⟨cs, stk, ts⟩
      else if valueAllowedB ts then
        match lexStrAux [] cs with
        | .ok (s, cs2) => .ok (.str s) ⟨cs2, stk, valueEndS ts⟩
        | .error e => .err e ⟨cs, stk, ts⟩
      else tokErrAt c cs stk ts
    else if c = '-' ∨ isDigitC c then
      if valueAllowedB ts then
        match lexNum (c :: cs) with
        | .ok (lit, cs2) => .ok (.num lit) ⟨cs2, stk, valueEndS ts⟩
        | .error e => .err e ⟨c :: cs, stk, ts⟩
      else tokErrAt c cs stk ts
    else if c = 't' then
      if valueAllowedB ts then
        match cs with
        | 'r' :: 'u' :: 'e' :: cs2 => .ok (.bool true) ⟨cs2, stk, valueEndS ts⟩
        | _ => .err (.synErr "invalid character in literal true") ⟨cs, stk, ts⟩
      else tokErrAt c cs stk ts
    else if c = 'f' then
      if valueAllowedB ts then
        match cs with
        | 'a' :: 'l' :: 's' :: 'e' :: cs2 => .ok (.bool false) ⟨cs2, stk, valueEndS ts⟩
        | _ => .err (.synErr "invalid character in literal false") ⟨cs, stk, ts⟩
      else tokErrAt c cs stk ts
    else if c = 'n' then
      if valueAllowedB ts then
        match cs with
        | 'u' :: 'l' :: 'l' :: cs2 => .ok .null ⟨cs2, stk, valueEndS ts⟩
        | _ => .err (.synErr "invalid character in literal null") ⟨cs, stk, ts⟩
      else tokErrAt c cs stk ts
    else tokErrAt c cs stk ts

/-- One call of the modeled `dec.Token()`. -/
def nextToken (st : DecState) : DRes Tok := ntAux st.rem st.stk st.ts

/-! ## The encoder (`encodeValue`, `encodeArray`, `encodeTree`)

`json.Marshal` escaping follows Go's default encoder: `"`, `\`, the
short escapes for newline, carriage return and tab, `\u00xx` for other
control characters, HTML escaping of `<`, `>`, `&`, and ` `,
` `. -/

def hexDigitLower (n : Nat) : Char :=
  if n < 10 then Char.ofNat ('0'.toNat + n) else Char.ofNat ('a'.toNat + (n - 10))

def escapeCharGo (c : Char) : List Char :=
  if c = '"' then ['\\', '"']
  else if c = '\\' then ['\\', '\\']
  else if c = '\n' then ['\\', 'n']
  else if c = '\r' then ['\\', 'r']
  else if c = '\t' then ['\\', 't']
  else if c.toNat < 0x20 then
    ['\\', 'u', '0', '0', hexDigitLower (c.toNat / 16), hexDigitLower (c.toNat % 16)]
  else if c = '<' then ['\\', 'u', '0', '0', '3', 'c']
  else if c = '>' then ['\\', 'u', '0', '0', '3', 'e']
  else if c = '&' then ['\\', 'u', '0', '0', '2', '6']
  else if c.toNat = 0x2028 then ['\\', 'u', '2', '0', '2', '8']
  else if c.toNat = 0x2029 then ['\\', 'u', '2', '0', '2', '9']
  else [c]

def escapeList : List Char → List Char
  | [] => []
  | c :: cs => escapeCharGo c ++ escapeList cs

/-- `json.Marshal` of a Go string: quoted and escaped. -/
def marshalStringL (s : String) : List Char :=
  '"' :: (escapeList s.data ++ ['"'])

/-- `json.Marshal` of a `sops.Comment` struct value (one exported field
`Value`), as the default struct encoder renders it. -/
def marshalCommentL (text : String) : List Char :=
  lbraceC :: (marshalStringL "Value" ++ ':' :: (marshalStringL text ++ [rbraceC]))

/-- The Go dynamic test `_, ok := v.(sops.Comment)`. -/
def isCommentV : GoVal → Bool
  | .comment _ => true
  | _ => false

mutual

/-- `Store.encodeValue`: dispatch on the dynamic type of the value.
The `branch` and `arr` cases carry the bodies of `Store.encodeTree`
and `Store.encodeArray` inline (the named wrappers below restate them
and agree definitionally). -/
def encodeValue : GoVal → GoResult (List Char)
  | .branch items =>
    (match encodeItemsGo true items with
     | .ok body => .ok (lbraceC :: (body ++ [rbraceC]))
     | .error e => .error e
     | .panicked m => .panicked m)
  | .arr elems =>
    (match encodeElemsGo true elems with
     | .ok body => .ok ('[' :: (body ++ [']']))
     | .error e => .error e
     | .panicked m => .panicked m)
  | .str s => .ok (marshalStringL s)
  | .num lit => .ok lit
  | .bool true => .ok ['t', 'r', 'u', 'e']
  | .bool false => .ok ['f', 'a', 'l', 's', 'e']
  | .null => .ok ['n', 'u', 'l', 'l']
  | .comment text => .ok (marshalCommentL text)

/-- The element loop of `Store.encodeArray`: `first` is the negation of
the source's `empty` flag (a comma precedes every element except the
first emitted one); `sops.Comment` elements are skipped without
touching the flag. -/
def encodeElemsGo (first : Bool) : List GoVal → GoResult (List Char)
  | [] => .ok []
  | e :: rest =>
    if isCommentV e then encodeElemsGo first rest
    else
      match encodeValue e with
      | .error err => .error err
      | .panicked m => .panicked m
      | .ok v =>
        match encodeElemsGo false rest with
        | .ok r => .ok ((if first then [] else [',']) ++ v ++ r)
        | .error err => .error err
        | .panicked m => .panicked m

/-- The item loop of `Store.encodeTree`: Comment-keyed items are
skipped; the value is encoded first (its error is wrapped); then the
key runs through the unchecked type assertion `item.Key.(string)`,
which panics on any non-string key. -/
def encodeItemsGo (first : Bool) : List TreeItem → GoResult (List Char)
  | [] => .ok []
  | (k, v) :: rest =>
    if isCommentV k then encodeItemsGo first rest
    else
      match encodeValue v with
      | .error e => .error (.wrap "Error encoding value" e)
      | .panicked m => .panicked m
      | .ok vb =>
        match k with
        | .str ks =>
          match encodeItemsGo false rest with
          | .ok r =>
            .ok ((if first then [] else [',']) ++ marshalStringL ks ++ ':' :: ' ' :: (vb ++ r))
          | .error e => .error e
          | .panicked m => .panicked m
        | _ => .panicked "interface conversion: interface \x7b\x7d is not string"

end

/-- `Store.encodeTree`. -/
def encodeTree (tree : TreeBranch) : GoResult (List Char) :=
  match encodeItemsGo true tree with
  | .ok body => .ok (lbraceC :: (body ++ [rbraceC]))
  | .error e => .error e
  | .panicked m => .panicked m

/-- `Store.encodeArray`. -/
def encodeArrayGo (array : List GoVal) : GoResult (List Char) :=
  match encodeElemsGo true array with
  | .ok body => .ok ('[' :: (body ++ [']']))
  | .error e => .error e
  | .panicked m => .panicked m

theorem encodeValue_branch (items : TreeBranch) :
    encodeValue (.branch items) = encodeTree items := rfl

theorem encodeValue_arr (elems : List GoVal) :
    encodeValue (.arr elems) = encodeArrayGo elems := rfl

/-! ## A parametric renderer

`renderVal` renders a (comment-free) value with configurable inter-token
whitespace; with `wCompact` it coincides with the encoder's output, and
with `wIndent` it produces the output of the reindentation pass.  `d` is
the nesting depth. -/

structure WsScheme where
  afterOpen : Nat → List Char
  afterComma : Nat → List Char
  beforeClose : Nat → List Char
  afterColon : List Char

def renderKey : GoVal → List Char
  | .str s => marshalStringL s
  | _ => []

mutual

def renderVal (w : WsScheme) (d : Nat) : GoVal → List Char
  | .str s => marshalStringL s
  | .num lit => lit
  | .bool true => ['t', 'r', 'u', 'e']
  | .bool false => ['f', 'a', 'l', 's', 'e']
  | .null => ['n', 'u', 'l', 'l']
  | .comment text => marshalCommentL text
  | .branch items =>
    lbraceC ::
      ((if items.isEmpty then []
        else w.afterOpen (d + 1) ++ renderItems w (d + 1) items ++ w.beforeClose d) ++ [rbraceC])
  | .arr elems =>
    '[' ::
      ((if elems.isEmpty then []
        else w.afterOpen (d + 1) ++ renderElems w (d + 1) elems ++ w.beforeClose d) ++ [']'])

def renderItems (w : WsScheme) (d : Nat) : List TreeItem → List Char
  | [] => []
  | (k, v) :: rest =>
    renderKey k ++ ':' :: (w.afterColon ++ renderVal w d v) ++
      (if rest.isEmpty then [] else ',' :: w.afterComma d) ++ renderItems w d rest

def renderElems (w : WsScheme) (d : Nat) : List GoVal → List Char
  | [] => []
  | e :: rest =>
    renderVal w d e ++ (if rest.isEmpty then [] else ',' :: w.afterComma d) ++
      renderElems w d rest

end

/-- The compact scheme: no whitespace except the single space the
encoder writes after each key's colon. -/
def wCompact : WsScheme := ⟨fun _ => [], fun _ => [], fun _ => [], [' ']⟩

def repList (u : List Char) : Nat → List Char
  | 0 => []
  | d + 1 => u ++ repList u d

/-- The indented scheme of `json.Indent` with empty prefix and indent
unit `u`: a newline plus `d` copies of the unit at each break, `": "`
after keys, empty containers kept compact. -/
def wIndent (u : List Char) : WsScheme :=
  ⟨fun d => '\n' :: repList u d, fun d => '\n' :: repList u d, fun d => '\n' :: repList u d, [' ']⟩

/-- A scheme that emits only whitespace at every break (both concrete
schemes above are of this kind). -/
def wsOK (w : WsScheme) : Prop :=
  (∀ d, wsOnlyL (w.afterOpen d) = true) ∧ (∀ d, wsOnlyL (w.afterComma d) = true) ∧
  (∀ d, wsOnlyL (w.beforeClose d) = true) ∧ wsOnlyL w.afterColon = true

/-! ## The generic tree decoder

`sliceFromJSONDecoder`, `treeItemFromJSONDecoder`,
`treeBranchFromJSONDecoder` and `treeBranchFromJSON`, faithfully
including: the `errEndOfObject` sentinel, the `io.EOF` special case in
the key read (a `nil` key falls through to the "Expected JSON object
key" error), and the branch collector treating `io.EOF` from an item as
a normal end of input (returning the branch built so far with no
error).  The functions are fuel-indexed to make termination structural;
the top entry point supplies fuel larger than any possible number of
recursive calls (each call consumes at least one input character). -/

mutual

/-- The value-reading part of `treeItemFromJSONDecoder` after the value
token has been read, factored out so the array collector's dispatch and
the item's dispatch share their shape. -/
def treeValueAfterTok : Nat → Tok → DecState → DRes GoVal
  | 0, _, st => .err .outOfFuel st
  | fuel + 1, t, st =>
  match t with
  | .lbrack =>
    match sliceFromDec fuel st with
    | .ok elems st2 => .ok (.arr elems) st2
    | .err e st2 => .err e st2
  | .lbrace =>
    match treeBranchFromDec fuel st with
    | .ok b st2 => .ok (.branch b) st2
    | .err e st2 => .err e st2
  -- a closing delimiter here leaves `item.Value` as Go `nil`
  -- (unreachable: the token state machine rejects it earlier)
  | .rbrack => .ok .null st
  | .rbrace => .ok .null st
  | .str s => .ok (.str s) st
  | .num lit => .ok (.num lit) st
  | .bool b => .ok (.bool b) st
  | .null => .ok .null st

/-- `Store.treeItemFromJSONDecoder`. -/
def treeItemFromDec : Nat → DecState → DRes TreeItem
  | 0, st => .err .outOfFuel st
  | fuel + 1, st =>
    match nextToken st with
    | .err e st1 =>
      -- `if err != nil && err != io.EOF` — on io.EOF the nil key falls
      -- through to the "Expected JSON object key" error
      if e = .eof then .err (.expectedObjectKey none) st1 else .err e st1
    | .ok t st1 =>
      match t with
      | .str k =>
        match nextToken st1 with
        | .err e st2 => .err e st2
        | .ok vt st2 =>
          match treeValueAfterTok fuel vt st2 with
          | .ok v st3 => .ok (GoVal.str k, v) st3
          | .err e st3 => .err e st3
      | .rbrace => .err .endOfObject st1
      | _ => .err (.expectedObjectKey (some t)) st1

/-- `Store.treeBranchFromJSONDecoder`. -/
def treeBranchFromDec : Nat → DecState → DRes TreeBranch
  | 0, st => .err .outOfFuel st
  | fuel + 1, st =>
    match treeItemFromDec fuel st with
    | .err .eof st1 => .ok [] st1
    | .err .endOfObject st1 => .ok [] st1
    | .err e st1 => .err e st1
    | .ok item st1 =>
      match treeBranchFromDec fuel st1 with
      | .ok rest st2 => .ok (item :: rest) st2
      | .err e st2 => .err e st2

/-- `Store.sliceFromJSONDecoder`. -/
def sliceFromDec : Nat → DecState → DRes (List GoVal)
  | 0, st => .err .outOfFuel st
  | fuel + 1, st =>
    match nextToken st with
    | .err e st1 => .err e st1
    | .ok t st1 =>
      match t with
      | .rbrack => .ok [] st1
      | .lbrace =>
        match treeBranchFromDec fuel st1 with
        | .err e st2 => .err e st2
        | .ok b st2 =>
          match sliceFromDec fuel st2 with
          | .ok rest st3 => .ok (.branch b :: rest) st3
          | .err e st3 => .err e st3
      | .lbrack =>
        match sliceFromDec fuel st1 with
        | .err e st2 => .err e st2
        | .ok inner st2 =>
          match sliceFromDec fuel st2 with
          | .ok rest st3 => .ok (.arr inner :: rest) st3
          | .err e st3 => .err e st3
      | .str s =>
        match sliceFromDec fuel st1 with
        | .ok rest st2 => .ok (.str s :: rest) st2
        | .err e st2 => .err e st2
      | .num lit =>
        match sliceFromDec fuel st1 with
        | .ok rest st2 => .ok (.num lit :: rest) st2
        | .err e st2 => .err e st2
      | .bool b =>
        match sliceFromDec fuel st1 with
        | .ok rest st2 => .ok (.bool b :: rest) st2
        | .err e st2 => .err e st2
      | .null =>
        match sliceFromDec fuel st1 with
        | .ok rest st2 => .ok (.null :: rest) st2
        | .err e st2 => .err e st2
      -- Go would append the bare `}` delimiter to the slice
      -- (unreachable: the state machine rejects it)
      | .rbrace =>
        match sliceFromDec fuel st1 with
        | .ok rest st2 => .ok (.null :: rest) st2
        | .err e st2 => .err e st2

end

/-- `Store.treeBranchFromJSON`: expect the object-open token, then run
the branch collector. -/
def treeBranchFromJSON (input : List Char) : Except GoErr TreeBranch :=
  match nextToken ⟨input, [], .top⟩ with
  | .err e _ => .error e
  | .ok t st1 =>
    match t with
    | .lbrace =>
      match treeBranchFromDec (input.length + 1) st1 with
      | .ok b _ => .ok b
      | .err e _ => .error e
    | .rbrace => .error (.expectedObjectStartDelim t)
    | .lbrack => .error (.expectedObjectStartDelim t)
    | .rbrack => .error (.expectedObjectStartDelim t)
    | _ => .error (.expectedObjectStart (some t))

/-! ## The strict generic parser (model of `json.Unmarshal`'s scan)

`json.Unmarshal` validates the entire input (truncation and trailing
data are errors) and builds a generic value.  It shares the scanner
with the token machine; order of object members is kept (the model only
ever looks members up by key, as the schema decode does). -/

mutual

def jvalueAfterTok : Nat → Tok → DecState → DRes GoVal
  | 0, _, st => .err .outOfFuel st
  | fuel + 1, t, st =>
  match t with
  | .lbrack =>
    match jelemsFromDec fuel st with
    | .ok elems st2 => .ok (.arr elems) st2
    | .err e st2 => .err e st2
  | .lbrace =>
    match jmembersFromDec fuel st with
    | .ok ms st2 => .ok (.branch ms) st2
    | .err e st2 => .err e st2
  | .rbrack => .err (.synErr "unexpected delimiter") st
  | .rbrace => .err (.synErr "unexpected delimiter") st
  | .str s => .ok (.str s) st
  | .num lit => .ok (.num lit) st
  | .bool b => .ok (.bool b) st
  | .null => .ok .null st

def jvalueFromDec : Nat → DecState → DRes GoVal
  | 0, st => .err .outOfFuel st
  | fuel + 1, st =>
    match nextToken st with
    | .err e st1 => .err e st1
    | .ok t st1 => jvalueAfterTok fuel t st1

def jmembersFromDec : Nat → DecState → DRes (List TreeItem)
  | 0, st => .err .outOfFuel st
  | fuel + 1, st =>
    match nextToken st with
    | .err e st1 => .err e st1
    | .ok t st1 =>
      match t with
      | .rbrace => .ok [] st1
      | .str k =>
        match jvalueFromDec fuel st1 with
        | .err e st2 => .err e st2
        | .ok v st2 =>
          match jmembersFromDec fuel st2 with
          | .err e st3 => .err e st3
          | .ok ms st3 => .ok ((GoVal.str k, v) :: ms) st3
      | _ => .err (.synErr "expected object key") st1

def jelemsFromDec : Nat → DecState → DRes (List GoVal)
  | 0, st => .err .outOfFuel st
  | fuel + 1, st =>
    match nextToken st with
    | .err e st1 => .err e st1
    | .ok t st1 =>
      match t with
      | .rbrack => .ok [] st1
      | .lbrace =>
        match jmembersFromDec fuel st1 with
        | .err e st2 => .err e st2
        | .ok b st2 =>
          match jelemsFromDec fuel st2 with
          | .ok rest st3 => .ok (.branch b :: rest) st3
          | .err e st3 => .err e st3
      | .lbrack =>
        match jelemsFromDec fuel st1 with
        | .err e st2 => .err e st2
        | .ok inner st2 =>
          match jelemsFromDec fuel st2 with
          | .ok rest st3 => .ok (.arr inner :: rest) st3
          | .err e st3 => .err e st3
      | .str s =>
        match jelemsFromDec fuel st1 with
        | .ok rest st2 => .ok (.str s :: rest) st2
        | .err e st2 => .err e st2
      | .num lit =>
        match jelemsFromDec fuel st1 with
        | .ok rest st2 => .ok (.num lit :: rest) st2
        | .err e st2 => .err e st2
      | .bool b =>
        match jelemsFromDec fuel st1 with
        | .ok rest st2 => .ok (.bool b :: rest) st2
        | .err e st2 => .err e st2
      | .null =>
        match jelemsFromDec fuel st1 with
        | .ok rest st2 => .ok (.null :: rest) st2
        | .err e st2 => .err e st2
      | .rbrace =>
        match jelemsFromDec fuel st1 with
        | .ok rest st2 => .ok (.null :: rest) st2
        | .err e st2 => .err e st2

end

/-- The model of `json.Unmarshal`'s generic parse of a whole input:
one value, then only whitespace up to end of input. -/
def jparse (input : List Char) : Except GoErr GoVal :=
  match jvalueFromDec (input.length + 2) ⟨input, [], .top⟩ with
  | .err e _ => .error e
  | .ok v st1 =>
    match nextToken st1 with
    | .err .eof _ => .ok v
    | .err e _ => .error e
    | .ok _ _ => .error (.synErr "invalid character after top-level value")

/-! ## Metadata (spec-modelled collaborators)

`stores.SopsFile`, `stores.Metadata`, `stores.SopsMetadataKey`,
`Metadata.ToInternal` and `stores.MetadataFromInternal` live outside
the provided source tree; they are modelled from the specification
(§3, §4.4, §6): a fixed-schema record describing encryption parameters,
stored under one reserved key, with a version string and a MAC. -/

/-- Modelled from the spec: the reserved metadata key name
(`stores.SopsMetadataKey`), "a single well-known string constant". -/
def SopsMetadataKey : String := "sops"

/-- Modelled from the spec: the fixed-schema Metadata record (version
string, MAC); a representative of the full record, whose other fields
play no role in any claim. -/
structure Metadata where
  version : String
  mac : String
deriving DecidableEq

/-- `sops.Tree`: the Document paired with its Metadata. -/
structure SopsTree where
  branches : TreeBranches
  metadata : Metadata

/-- First value stored under a string key (the schema decode's field
lookup). -/
def lookupKeyJ (k : String) : List TreeItem → Option GoVal
  | [] => none
  | (kk, v) :: rest =>
    match kk with
    | .str s => if s = k then some v else lookupKeyJ k rest
    | _ => lookupKeyJ k rest

/-- Modelled from the spec: the schema-aware decode of only the
metadata shape (`json.Unmarshal(in, &stores.SopsFile{})`).  The whole
input is parsed (any syntax error surfaces); a missing or null reserved
key yields no metadata; a numeric `version` yields the
`UnmarshalTypeError` with `Value == "number"`, `Struct == "Metadata"`,
`Field == "version"` that marks the legacy format; other shape
mismatches yield other decode errors. -/
def unmarshalSopsFile (input : List Char) : Except GoErr (Option Metadata) :=
  match jparse input with
  | .error e => .error e
  | .ok v =>
    match v with
    | .branch ms =>
      match lookupKeyJ SopsMetadataKey ms with
      | none => .ok none
      | some .null => .ok none
      | some (.branch sms) =>
        let mac : String :=
          match lookupKeyJ "mac" sms with
          | some (.str m) => m
          | _ => ""
        match lookupKeyJ "version" sms with
        | some (.num _) => .error (.typeNum "Metadata" "version")
        | some (.str ver) => .ok (some ⟨ver, mac⟩)
        | some .null => .ok (some ⟨"", mac⟩)
        | none => .ok (some ⟨"", mac⟩)
        | some _ => .error (.typeOther "cannot unmarshal value into field version of type string")
      | some _ => .error (.typeOther "cannot unmarshal value into field sops of type Metadata")
    | _ => .error (.typeOther "cannot unmarshal value into type SopsFile")

/-- Modelled from the spec: `Metadata.ToInternal`, converting the
stores-layer record into the internal one (the model uses one record
type for both). -/
def metadataToInternal (m : Metadata) : Except GoErr Metadata := .ok m

/-- Modelled from the spec: `stores.MetadataFromInternal`, rendering
the Metadata record as a generic tree value for embedding under the
reserved key. -/
def metadataFromInternal (m : Metadata) : GoVal :=
  .branch [(.str "version", .str m.version), (.str "mac", .str m.mac)]

/-! ## The metadata removal loop, with Go slice semantics

`LoadEncryptedFile` discards the metadata with

  for i, item := range branch \x7b
    if item.Key == stores.SopsMetadataKey \x7b
      branch = append(branch[:i], branch[i+1:]...)
    \x7d
  \x7d

`range branch` iterates over the original slice header (the original
length), while `append` rewrites the shared backing array in place and
shortens the live slice.  The model keeps the backing array `A` (whose
length never changes) and the live length `len`: reading index `i`
reads `A[i]`; a removal at `i < len` shifts `A[i+1 .. len-1]` down one
place; a removal at `i ≥ len` evaluates `branch[i+1:]` with
`i + 1 > len(branch)`, which panics. -/

/-- `item.Key == stores.SopsMetadataKey`: Go interface equality against
a string constant. -/
def keyEqualsStr (k : GoVal) (s : String) : Bool :=
  match k with
  | .str t => t = s
  | _ => false

/-- In-place removal at index `i` from the backing array `A` with live
length `len` (requires `i < len ≤ A.length`): positions before `i` are
kept, positions `i .. len-2` take their successor, positions from
`len-1` keep their old (now dead) values. -/
def spliceAt (A : List TreeItem) (len i : Nat) : List TreeItem :=
  (List.range A.length).map fun j =>
    if j < i then A.getD j (GoVal.null, GoVal.null)
    else if j + 1 < len then A.getD (j + 1) (GoVal.null, GoVal.null)
    else A.getD j (GoVal.null, GoVal.null)

theorem spliceAt_length (A : List TreeItem) (len i : Nat) :
    (spliceAt A len i).length = A.length := by
  simp [spliceAt]

/-- The removal loop.  `range branch` runs exactly `n` iterations for
the original length `n`; `steps` counts the iterations still to run
(so `i = n - steps` and the loop ends when `steps = 0`), `A` is the
backing array (its length stays `n`), `len` the live length. -/
def discardGo : Nat → List TreeItem → Nat → Nat → GoResult (List TreeItem)
  | 0, A, len, _ => .ok (A.take len)
  | steps + 1, A, len, i =>
    if keyEqualsStr (A.getD i (GoVal.null, GoVal.null)).1 SopsMetadataKey then
      if i < len then discardGo steps (spliceAt A len i) (len - 1) (i + 1)
      else .panicked "runtime error: slice bounds out of range"
    else discardGo steps A len (i + 1)

/-- The whole `for i, item := range branch` discard loop. -/
def discardSopsMetadata (branch : TreeBranch) : GoResult TreeBranch :=
  discardGo branch.length branch branch.length 0

/-! ## Reindentation and the Store operations -/

/-- The legacy-format check on the unmarshal error:
`err.Value == "number" && err.Struct == "Metadata" && err.Field == "version"`. -/
def isLegacyVersionErr : GoErr → Bool
  | .typeNum s f => s = "Metadata" && f = "version"
  | _ => false

/-- The remediation message returned for pre-2.0.10 files. -/
def legacyMsg : String :=
  "SOPS versions higher than 2.0.10 can not automatically decrypt JSON files " ++
  "created with SOPS 1.x. In order to be able to decrypt this file, you can either edit it " ++
  "manually and make sure the JSON value under `sops -> version` is a string and not a " ++
  "number, or you can rotate the file's key with any version of SOPS between 2.0 and 2.0.10 " ++
  "using `sops -r your_file.json`"

/-- Model of the standard library's `json.Indent` with empty prefix:
re-emit the token stream with one element per line, `d` units of indent
at depth `d`, `": "` after keys, empty containers compact, failing on
input that is not well-formed JSON.  (On this store's encoder output
this is byte-for-byte `encoding/json`'s behavior.) -/
def jsonIndentModel (u : List Char) (input : List Char) : Except GoErr (List Char) :=
  match jparse input with
  | .error e => .error e
  | .ok v => .ok (renderVal (wIndent u) 0 v)

/-- `Store.reindentJSON`: tab when the configured width is the `-1`
sentinel, `n` spaces for a configured `n ≥ 0`, an error for anything
below `-1`. -/
def reindentJSON (indentCfg : Int) (input : List Char) : Except GoErr (List Char) :=
  if indentCfg > -1 then jsonIndentModel (List.replicate indentCfg.toNat ' ') input
  else if indentCfg < -1 then
    .error (.errorMsg "JSON Indentation parameter smaller than -1 is not accepted")
  else jsonIndentModel ['\t'] input

/-- `Store.jsonFromTreeBranch`. -/
def jsonFromTreeBranch (indentCfg : Int) (branch : TreeBranch) : GoResult (List Char) :=
  match encodeTree branch with
  | .panicked m => .panicked m
  | .error e => .error e
  | .ok out =>
    match reindentJSON indentCfg out with
    | .ok r => .ok r
    | .error e => .error e

/-- `Store.LoadPlainFile`. -/
def loadPlainFile (input : List Char) : GoResult TreeBranches :=
  match treeBranchFromJSON input with
  | .error e => .error (.wrap "Could not unmarshal input data" e)
  | .ok b => .ok [b]

/-- `Store.LoadEncryptedFile`: schema-aware metadata decode (with the
legacy-format check on its error), `MetadataNotFound` when the reserved
key is absent, then the generic decode of the whole input and the
metadata removal loop. -/
def loadEncryptedFile (input : List Char) : GoResult SopsTree :=
  match unmarshalSopsFile input with
  | .error e =>
    if isLegacyVersionErr e then .error (.errorMsg legacyMsg)
    else .error (.wrap "Error unmarshalling input json" e)
  | .ok none => .error .metadataNotFound
  | .ok (some raw) =>
    match metadataToInternal raw with
    | .error e => .error e
    | .ok md =>
      match treeBranchFromJSON input with
      | .error e => .error (.wrap "Could not unmarshal input data" e)
      | .ok branch =>
        match discardSopsMetadata branch with
        | .panicked m => .panicked m
        | .error e => .error e
        | .ok body => .ok ⟨[body], md⟩

/-- `Store.EmitEncryptedFile`: append the metadata item to the end of
`in.Branches[0]` (an unguarded index: the empty document panics),
encode, reindent, and append a newline. -/
def emitEncryptedFile (indentCfg : Int) (t : SopsTree) : GoResult (List Char) :=
  match t.branches with
  | [] => .panicked "runtime error: index out of range [0] with length 0"
  | b :: _ =>
    match jsonFromTreeBranch indentCfg
        (b ++ [(.str SopsMetadataKey, metadataFromInternal t.metadata)]) with
    | .ok out => .ok (out ++ ['\n'])
    | .error e => .error (.wrap "Error marshaling to json" e)
    | .panicked m => .panicked m

/-- `Store.EmitPlainFile`: encode `in[0]` (an unguarded index) and
append a newline. -/
def emitPlainFile (indentCfg : Int) (branches : TreeBranches) : GoResult (List Char) :=
  match branches with
  | [] => .panicked "runtime error: index out of range [0] with length 0"
  | b :: _ =>
    match jsonFromTreeBranch indentCfg b with
    | .ok out => .ok (out ++ ['\n'])
    | .error e => .error (.wrap "Error marshaling to json" e)
    | .panicked m => .panicked m

/-- `Store.EmitValue`. -/
def emitValue (indentCfg : Int) (v : GoVal) : GoResult (List Char) :=
  match encodeValue v with
  | .error e => .error e
  | .panicked m => .panicked m
  | .ok s =>
    match reindentJSON indentCfg s with
    | .ok r => .ok r
    | .error e => .error e

/-! ## The BinaryStore adapter -/

/-- `BinaryStore.LoadPlainFile`: wrap the payload as the single item
`data: string(in)`. -/
def binaryLoadPlainFile (input : List Char) : GoResult TreeBranches :=
  .ok [[(GoVal.str "data", GoVal.str (String.mk input))]]

/-- The item scan of `BinaryStore.EmitPlainFile`. -/
def binaryFindData : TreeBranch → GoResult (List Char)
  | [] => .error (.errorMsg "error emitting binary store: no binary data found in tree")
  | (k, v) :: rest =>
    if keyEqualsStr k "data" then
      match v with
      | .str s => .ok s.data
      | _ =>
        .error (.errorMsg "error emitting binary store: data key in tree does not have a string value")
    else binaryFindData rest

/-- `BinaryStore.EmitPlainFile`: requires exactly one branch, returns
the raw payload from its `data` item. -/
def binaryEmitPlainFile (branches : TreeBranches) : GoResult (List Char) :=
  match branches with
  | [b] => binaryFindData b
  | _ => .error (.errorMsg "error emitting binary store: there must be exactly one tree branch")

/-- `BinaryStore.EmitValue`: always fails. -/
def binaryEmitValue (v : GoVal) : GoResult (List Char) :=
  .error (.errorMsg "Binary files are not structured and extracting a single value is not possible")

/-- `BinaryStore.LoadEncryptedFile` delegates to the JSON store. -/
def binaryLoadEncryptedFile (input : List Char) : GoResult SopsTree :=
  loadEncryptedFile input

/-- `BinaryStore.EmitEncryptedFile` delegates to the JSON store. -/
def binaryEmitEncryptedFile (indentCfg : Int) (t : SopsTree) : GoResult (List Char) :=
  emitEncryptedFile indentCfg t

/-! ## Decoder-image and key-shape predicates -/

/-- A valid, fully-consumed JSON number literal: what the number
scanner accepts and consumes entirely.  The decoder's `float64` values
are represented by such literals. -/
def numLitOk (lit : List Char) : Bool :=
  match lexNum lit with
  | .ok (_, r) => r.isEmpty
  | .error _ => false

/-- The first character (if any) cannot extend a digit run. -/
def headNotDigit : List Char → Bool
  | [] => true
  | c :: _ => !isDigitC c

/-- The first character (if any) cannot extend a number literal: not a
digit, not a decimal point, not an exponent marker. -/
def numDelim : List Char → Bool
  | [] => true
  | c :: _ => !isDigitC c && !(c = '.') && !(c = 'e') && !(c = 'E')

/-- A nonempty run of digits. -/
def digitsNZ : List Char → Bool
  | [] => false
  | c :: cs => isDigitC c && cs.all isDigitC

/-- An optional exponent part: empty, or `e`/`E`, an optional sign, and
a nonempty digit run ending the literal. -/
def expOk : List Char → Bool
  | [] => true
  | c :: r =>
    (c = 'e' || c = 'E') &&
    (match r with
     | s :: r2 => if s = '+' ∨ s = '-' then digitsNZ r2 else digitsNZ r
     | [] => false)

/-- An optional fraction (a point and a nonempty digit run) followed by
an optional exponent. -/
def fracExpOk : List Char → Bool
  | '.' :: r =>
    (match takeDigits r with
     | ([], _) => false
     | (_, r2) => expOk r2)
  | cs => expOk cs

/-- The unsigned part of a literal in the scanner's shape: `0` alone or
a digit run led by a nonzero digit, then fraction/exponent. -/
def goodNumCore : List Char → Bool
  | [] => false
  | c :: r =>
    if c = '0' then fracExpOk r
    else if isDigitC c then fracExpOk (takeDigits (c :: r)).2
    else false

/-- The exact shape of the literal text of a `float64` token as the
number scanner emits it (an optional minus sign, then the unsigned
shape); such literals scan back to themselves (`goodNumLit_numLitOk`).
-/
def goodNumLit : List Char → Bool
  | '-' :: r => goodNumCore r
  | lit => goodNumCore lit

mutual

/-- Membership in the decoder's image: string keys, no comments,
number scalars carrying literal text of the shape the scanner emits. -/
def decodableV : GoVal → Bool
  | .str _ => true
  | .num lit => goodNumLit lit
  | .bool _ => true
  | .null => true
  | .branch items => decodableItems items
  | .arr elems => decodableElems elems
  | .comment _ => false

def decodableItems : List TreeItem → Bool
  | [] => true
  | (k, v) :: rest =>
    (match k with
     | .str _ => true
     | _ => false) && decodableV v && decodableItems rest

def decodableElems : List GoVal → Bool
  | [] => true
  | e :: rest => decodableV e && decodableElems rest

end

/-! Fuel requirements of the generic parser: each constructor counts
the recursion layers its parse consumes. -/

mutual

def jcostV : GoVal → Nat
  | .branch items => 2 + jcostItems items
  | .arr elems => 2 + jcostElems elems
  | _ => 2

/-- Extra layers an element of a slice needs beyond its own
`jelemsFromDec` layer (its members/elements collector, if any; scalar
elements are consumed inline). -/
def jcostInner : GoVal → Nat
  | .branch items => jcostItems items
  | .arr elems => jcostElems elems
  | _ => 0

def jcostItems : List TreeItem → Nat
  | [] => 1
  | (_, v) :: rest => 1 + max (jcostV v) (jcostItems rest)

def jcostElems : List GoVal → Nat
  | [] => 1
  | e :: rest => 1 + max (jcostInner e) (jcostElems rest)

end

mutual

/-- Key well-formedness for the encode path: every key at every level
is a string or a comment (anything else makes `encodeTree` panic). -/
def wellKeyedV : GoVal → Bool
  | .branch items => wellKeyedItems items
  | .arr elems => wellKeyedElems elems
  | _ => true

def wellKeyedItems : List TreeItem → Bool
  | [] => true
  | (k, v) :: rest =>
    (match k with
     | .str _ => true
     | .comment _ => true
     | _ => false) && wellKeyedV v && wellKeyedItems rest

def wellKeyedElems : List GoVal → Bool
  | [] => true
  | e :: rest => wellKeyedV e && wellKeyedElems rest

end

mutual

/-- On a well-keyed value the encoder always succeeds: over this value
universe its error branches are unreachable and the key-assertion panic
needs a non-string, non-comment key. -/
theorem encodeValue_wellKeyed : ∀ v : GoVal, wellKeyedV v = true → ∃ s, encodeValue v = GoResult.ok s
  | .branch items, h => by
    obtain ⟨s, hs⟩ := encodeItemsGo_wellKeyed true items (by simpa [wellKeyedV] using h)
    exact ⟨lbraceC :: (s ++ [rbraceC]), by simp [encodeValue, hs]⟩
  | .arr elems, h => by
    obtain ⟨s, hs⟩ := encodeElemsGo_wellKeyed true elems (by simpa [wellKeyedV] using h)
    exact ⟨'[' :: (s ++ [']']), by simp [encodeValue, hs]⟩
  | .str s, _ => ⟨marshalStringL s, rfl⟩
  | .num lit, _ => ⟨lit, rfl⟩
  | .bool true, _ => ⟨['t', 'r', 'u', 'e'], rfl⟩
  | .bool false, _ => ⟨['f', 'a', 'l', 's', 'e'], rfl⟩
  | .null, _ => ⟨['n', 'u', 'l', 'l'], rfl⟩
  | .comment text, _ => ⟨marshalCommentL text, rfl⟩

theorem encodeElemsGo_wellKeyed : ∀ (first : Bool) (elems : List GoVal),
    wellKeyedElems elems = true → ∃ s, encodeElemsGo first elems = GoResult.ok s
  | _, [], _ => ⟨[], rfl⟩
  | first, e :: rest, h => by
    have hsplit : wellKeyedV e = true ∧ wellKeyedElems rest = true := by
      simpa [wellKeyedElems, Bool.and_eq_true] using h
    by_cases hc : isCommentV e = true
    · obtain ⟨s, hs⟩ := encodeElemsGo_wellKeyed first rest hsplit.2
      exact ⟨s, by simp only [encodeElemsGo, hc, if_true]; exact hs⟩
    · obtain ⟨v, hv⟩ := encodeValue_wellKeyed e hsplit.1
      obtain ⟨r, hr⟩ := encodeElemsGo_wellKeyed false rest hsplit.2
      exact ⟨(if first then [] else [',']) ++ v ++ r, by
        simp only [encodeElemsGo, hv, hr]
        rw [if_neg hc]⟩

theorem encodeItemsGo_wellKeyed : ∀ (first : Bool) (items : List TreeItem),
    wellKeyedItems items = true → ∃ s, encodeItemsGo first items = GoResult.ok s
  | _, [], _ => ⟨[], rfl⟩
  | first, (k, v) :: rest, h => by
    cases k with
    | comment ctext =>
      have hrest : wellKeyedItems rest = true := by
        simp [wellKeyedItems, Bool.and_eq_true] at h
        exact h.2
      obtain ⟨s, hs⟩ := encodeItemsGo_wellKeyed first rest hrest
      exact ⟨s, by simp only [encodeItemsGo, isCommentV, if_true]; exact hs⟩
    | str ks =>
      have h2 : wellKeyedV v = true ∧ wellKeyedItems rest = true := by
        simpa [wellKeyedItems, Bool.and_eq_true] using h
      obtain ⟨vb, hv⟩ := encodeValue_wellKeyed v h2.1
      obtain ⟨r, hr⟩ := encodeItemsGo_wellKeyed false rest h2.2
      exact ⟨(if first then [] else [',']) ++ marshalStringL ks ++ ':' :: ' ' :: (vb ++ r), by
        simp [encodeItemsGo, isCommentV, hv, hr]⟩
    | num lit => simp [wellKeyedItems] at h
    | bool b => simp [wellKeyedItems] at h
    | null => simp [wellKeyedItems] at h
    | branch items2 => simp [wellKeyedItems] at h
    | arr elems2 => simp [wellKeyedItems] at h

end

theorem wellKeyedItems_append {xs ys : List TreeItem}
    (hx : wellKeyedItems xs = true) (hy : wellKeyedItems ys = true) :
    wellKeyedItems (xs ++ ys) = true := by
  induction xs with
  | nil => simpa using hy
  | cons it rest ih =>
    obtain ⟨k, v⟩ := it
    simp only [wellKeyedItems, Bool.and_eq_true] at hx ⊢
    exact ⟨⟨hx.1.1, hx.1.2⟩, ih hx.2⟩

theorem metadataFromInternal_wellKeyed (md : Metadata) :
    wellKeyedV (metadataFromInternal md) = true := by
  simp [metadataFromInternal, wellKeyedV, wellKeyedItems]

/-! ## One-step unfoldings (definitional) -/

theorem treeBranchFromDec_step (fuel : Nat) (st : DecState) :
    treeBranchFromDec (fuel + 1) st =
      (match treeItemFromDec fuel st with
       | .err .eof st1 => .ok [] st1
       | .err .endOfObject st1 => .ok [] st1
       | .err e st1 => .err e st1
       | .ok item st1 =>
         match treeBranchFromDec fuel st1 with
         | .ok rest st2 => .ok (item :: rest) st2
         | .err e st2 => .err e st2) := rfl

theorem treeItemFromDec_step (fuel : Nat) (st : DecState) :
    treeItemFromDec (fuel + 1) st =
      (match nextToken st with
       | .err e st1 =>
         if e = .eof then .err (.expectedObjectKey none) st1 else .err e st1
       | .ok t st1 =>
         match t with
         | .str k =>
           match nextToken st1 with
           | .err e st2 => .err e st2
           | .ok vt st2 =>
             match treeValueAfterTok fuel vt st2 with
             | .ok v st3 => .ok (GoVal.str k, v) st3
             | .err e st3 => .err e st3
         | .rbrace => .err .endOfObject st1
         | _ => .err (.expectedObjectKey (some t)) st1) := rfl

theorem jvalueFromDec_step (fuel : Nat) (st : DecState) :
    jvalueFromDec (fuel + 1) st =
      (match nextToken st with
       | .err e st1 => .err e st1
       | .ok t st1 => jvalueAfterTok fuel t st1) := rfl

theorem sliceFromDec_step (fuel : Nat) (st : DecState) :
    sliceFromDec (fuel + 1) st =
      (match nextToken st with
       | .err e st1 => .err e st1
       | .ok t st1 =>
         match t with
         | .rbrack => .ok [] st1
         | .lbrace =>
           match treeBranchFromDec fuel st1 with
           | .err e st2 => .err e st2
           | .ok b st2 =>
             match sliceFromDec fuel st2 with
             | .ok rest st3 => .ok (.branch b :: rest) st3
             | .err e st3 => .err e st3
         | .lbrack =>
           match sliceFromDec fuel st1 with
           | .err e st2 => .err e st2
           | .ok inner st2 =>
             match sliceFromDec fuel st2 with
             | .ok rest st3 => .ok (.arr inner :: rest) st3
             | .err e st3 => .err e st3
         | .str s =>
           match sliceFromDec fuel st1 with
           | .ok rest st2 => .ok (.str s :: rest) st2
           | .err e st2 => .err e st2
         | .num lit =>
           match sliceFromDec fuel st1 with
           | .ok rest st2 => .ok (.num lit :: rest) st2
           | .err e st2 => .err e st2
         | .bool b =>
           match sliceFromDec fuel st1 with
           | .ok rest st2 => .ok (.bool b :: rest) st2
           | .err e st2 => .err e st2
         | .null =>
           match sliceFromDec fuel st1 with
           | .ok rest st2 => .ok (.null :: rest) st2
           | .err e st2 => .err e st2
         | .rbrace =>
           match sliceFromDec fuel st1 with
           | .ok rest st2 => .ok (.null :: rest) st2
           | .err e st2 => .err e st2) := rfl

theorem treeValueAfterTok_step (fuel : Nat) (t : Tok) (st : DecState) :
    treeValueAfterTok (fuel + 1) t st =
      (match t with
       | .lbrack =>
         match sliceFromDec fuel st with
         | .ok elems st2 => .ok (.arr elems) st2
         | .err e st2 => .err e st2
       | .lbrace =>
         match treeBranchFromDec fuel st with
         | .ok b st2 => .ok (.branch b) st2
         | .err e st2 => .err e st2
       | .rbrack => .ok .null st
       | .rbrace => .ok .null st
       | .str s => .ok (.str s) st
       | .num lit => .ok (.num lit) st
       | .bool b => .ok (.bool b) st
       | .null => .ok .null st) := rfl

theorem jmembersFromDec_step (fuel : Nat) (st : DecState) :
    jmembersFromDec (fuel + 1) st =
      (match nextToken st with
       | .err e st1 => .err e st1
       | .ok t st1 =>
         match t with
         | .rbrace => .ok [] st1
         | .str k =>
           match jvalueFromDec fuel st1 with
           | .err e st2 => .err e st2
           | .ok v st2 =>
             match jmembersFromDec fuel st2 with
             | .err e st3 => .err e st3
             | .ok ms st3 => .ok ((GoVal.str k, v) :: ms) st3
         | _ => .err (.synErr "expected object key") st1) := rfl


/-! ## Tokenizer lemmas on rendered text -/

theorem wsOnlyL_append {a b : List Char} (ha : wsOnlyL a = true) (hb : wsOnlyL b = true) :
    wsOnlyL (a ++ b) = true := by
  simp only [wsOnlyL, List.all_append, Bool.and_eq_true]
  exact ⟨ha, hb⟩

theorem ntAux_ws : ∀ (ws : List Char), wsOnlyL ws = true →
    ∀ cs stk ts, ntAux (ws ++ cs) stk ts = ntAux cs stk ts
  | [], _, cs, stk, ts => rfl
  | c :: ws2, h, cs, stk, ts => by
    have hc : isSpaceC c = true ∧ wsOnlyL ws2 = true := by
      simpa [wsOnlyL, Bool.and_eq_true] using h
    show ntAux (c :: (ws2 ++ cs)) stk ts = _
    simp only [ntAux, hc.1, if_true]
    exact ntAux_ws ws2 hc.2 cs stk ts

theorem ntAux_colon (cs : List Char) (stk : List TkState) :
    ntAux (':' :: cs) stk .objColon = ntAux cs stk .objV := by
  simp +decide [ntAux]

theorem ntAux_comma_arr (cs : List Char) (stk : List TkState) :
    ntAux (',' :: cs) stk .arrV = ntAux cs stk .arrC := by
  simp +decide [ntAux]

theorem ntAux_comma_obj (cs : List Char) (stk : List TkState) :
    ntAux (',' :: cs) stk .objAfter = ntAux cs stk .objKey := by
  simp +decide [ntAux]

theorem ntAux_lbrace (cs : List Char) (stk : List TkState) (ts : TkState)
    (h : valueAllowedB ts = true) :
    ntAux (lbraceC :: cs) stk ts = .ok .lbrace ⟨cs, ts :: stk, .objS⟩ := by
  simp +decide [ntAux, h]

theorem ntAux_rbrace (cs : List Char) (stk : List TkState) (p ts : TkState)
    (h : ts = .objS ∨ ts = .objAfter) :
    ntAux (rbraceC :: cs) (p :: stk) ts = .ok .rbrace ⟨cs, stk, valueEndS p⟩ := by
  rcases h with h | h <;> subst h <;> simp +decide [ntAux]

theorem ntAux_lbrack (cs : List Char) (stk : List TkState) (ts : TkState)
    (h : valueAllowedB ts = true) :
    ntAux ('[' :: cs) stk ts = .ok .lbrack ⟨cs, ts :: stk, .arrS⟩ := by
  simp +decide [ntAux, h]

theorem ntAux_rbrack (cs : List Char) (stk : List TkState) (p ts : TkState)
    (h : ts = .arrS ∨ ts = .arrV) :
    ntAux (']' :: cs) (p :: stk) ts = .ok .rbrack ⟨cs, stk, valueEndS p⟩ := by
  rcases h with h | h <;> subst h <;> simp +decide [ntAux]

theorem ntAux_kwTrue (cs : List Char) (stk : List TkState) (ts : TkState)
    (h : valueAllowedB ts = true) :
    ntAux ('t' :: 'r' :: 'u' :: 'e' :: cs) stk ts = .ok (.bool true) ⟨cs, stk, valueEndS ts⟩ := by
  simp +decide [ntAux, h]

theorem ntAux_kwFalse (cs : List Char) (stk : List TkState) (ts : TkState)
    (h : valueAllowedB ts = true) :
    ntAux ('f' :: 'a' :: 'l' :: 's' :: 'e' :: cs) stk ts =
      .ok (.bool false) ⟨cs, stk, valueEndS ts⟩ := by
  simp +decide [ntAux, h]

theorem ntAux_kwNull (cs : List Char) (stk : List TkState) (ts : TkState)
    (h : valueAllowedB ts = true) :
    ntAux ('n' :: 'u' :: 'l' :: 'l' :: cs) stk ts = .ok .null ⟨cs, stk, valueEndS ts⟩ := by
  simp +decide [ntAux, h]

theorem ntAux_wsEof (ws : List Char) (h : wsOnlyL ws = true) (stk : List TkState) (ts : TkState) :
    ntAux ws stk ts = .err .eof ⟨[], stk, ts⟩ := by
  have := ntAux_ws ws h [] stk ts
  simpa [ntAux] using this


theorem String_mk_data (s : String) : String.mk s.data = s := by cases s; rfl

theorem lexStrAux_plain (acc : List Char) (c : Char) (tail : List Char)
    (h1 : c ≠ '"') (h2 : c ≠ '\\') (h3 : ¬ c.toNat < 0x20) :
    lexStrAux acc (c :: tail) = lexStrAux (c :: acc) tail := by
  rw [lexStrAux.eq_def]
  split <;> simp_all

theorem hexValC_hexDigitLower (k : Nat) (h : k < 16) : hexValC (hexDigitLower k) = some k := by
  interval_cases k <;> decide

theorem hex4C_00 (n : Nat) (h : n < 256) :
    hex4C '0' '0' (hexDigitLower (n / 16)) (hexDigitLower (n % 16)) = some n := by
  have h1 : n / 16 < 16 := by omega
  have h2 : n % 16 < 16 := Nat.mod_lt _ (by omega)
  have h0 : hexValC '0' = some 0 := by decide
  simp [hex4C, h0, hexValC_hexDigitLower _ h1, hexValC_hexDigitLower _ h2, Option.bind]
  omega

theorem lexStrAux_escapeChar (acc : List Char) (c : Char) (tail : List Char) :
    lexStrAux acc (escapeCharGo c ++ tail) = lexStrAux (c :: acc) tail := by
  by_cases h1 : c = '"'
  · subst h1; rfl
  by_cases h2 : c = '\\'
  · subst h2; rfl
  by_cases h3 : c = '\n'
  · subst h3; rfl
  by_cases h4 : c = '\r'
  · subst h4; rfl
  by_cases h5 : c = '\t'
  · subst h5; rfl
  by_cases h6 : c.toNat < 0x20
  · have e1 : escapeCharGo c =
        ['\\', 'u', '0', '0', hexDigitLower (c.toNat / 16), hexDigitLower (c.toNat % 16)] := by
      simp [escapeCharGo, h1, h2, h3, h4, h5, h6]
    rw [e1]
    simp only [List.cons_append, List.nil_append, lexStrAux]
    rw [hex4C_00 c.toNat (by omega)]
    simp only [if_neg (by omega : ¬ (0xD800 ≤ c.toNat ∧ c.toNat < 0xDC00)),
      if_neg (by omega : ¬ (0xDC00 ≤ c.toNat ∧ c.toNat < 0xE000)), Char.ofNat_toNat]
    rfl
  by_cases h7 : c = '<'
  · subst h7; rfl
  by_cases h8 : c = '>'
  · subst h8; rfl
  by_cases h9 : c = '&'
  · subst h9; rfl
  by_cases h10 : c = Char.ofNat 0x2028
  · subst h10; rfl
  by_cases h11 : c = Char.ofNat 0x2029
  · subst h11; rfl
  have t10 : ¬ c.toNat = 0x2028 := fun h => h10 (by rw [← Char.ofNat_toNat c, h])
  have t11 : ¬ c.toNat = 0x2029 := fun h => h11 (by rw [← Char.ofNat_toNat c, h])
  have e1 : escapeCharGo c = [c] := by
    simp [escapeCharGo, h1, h2, h3, h4, h5, h6, h7, h8, h9, t10, t11]
  rw [e1]
  exact lexStrAux_plain acc c tail h1 h2 h6

theorem lexStrAux_escapeList : ∀ (l : List Char) (acc tail : List Char),
    lexStrAux acc (escapeList l ++ '"' :: tail) = .ok (String.mk (acc.reverse ++ l), tail)
  | [], acc, tail => by simp [escapeList, lexStrAux]
  | c :: l2, acc, tail => by
    rw [escapeList, List.append_assoc, lexStrAux_escapeChar,
      lexStrAux_escapeList l2 (c :: acc) tail]
    simp


theorem ntAux_str_key (s : String) (cs : List Char) (stk : List TkState) (ts : TkState)
    (h : ts = .objS ∨ ts = .objKey) :
    ntAux ('"' :: (escapeList s.data ++ '"' :: cs)) stk ts = .ok (.str s) ⟨cs, stk, .objColon⟩ := by
  rcases h with h | h <;> subst h <;>
    simp +decide [ntAux, lexStrAux_escapeList, String_mk_data]

theorem ntAux_str_val (s : String) (cs : List Char) (stk : List TkState) (ts : TkState)
    (hv : valueAllowedB ts = true) :
    ntAux ('"' :: (escapeList s.data ++ '"' :: cs)) stk ts =
      .ok (.str s) ⟨cs, stk, valueEndS ts⟩ := by
  cases ts <;> simp_all +decide [ntAux, valueAllowedB, valueEndS, lexStrAux_escapeList,
    String_mk_data]


theorem takeDigits_sound : ∀ cs : List Char,
    cs = (takeDigits cs).1 ++ (takeDigits cs).2 ∧ (takeDigits cs).1.all isDigitC = true ∧
      headNotDigit (takeDigits cs).2 = true
  | [] => by simp [takeDigits, headNotDigit]
  | c :: cs => by
    by_cases hc : isDigitC c = true
    · obtain ⟨h1, h2, h3⟩ := takeDigits_sound cs
      simp only [takeDigits, hc, if_true]
      refine ⟨?_, ?_, ?_⟩
      · simpa using congrArg (c :: ·) h1
      · simp [List.all_cons, hc, h2]
      · simpa using h3
    · simp [takeDigits, hc, headNotDigit, List.all_nil]

theorem takeDigits_exact : ∀ (ds r : List Char), ds.all isDigitC = true →
    headNotDigit r = true → takeDigits (ds ++ r) = (ds, r)
  | [], r, _, hr => by
    cases r with
    | nil => rfl
    | cons c r2 =>
      have : isDigitC c = false := by simpa [headNotDigit] using hr
      simp [takeDigits, this]
  | d :: ds2, r, h, hr => by
    have hd : isDigitC d = true ∧ ds2.all isDigitC = true := by
      simpa [List.all_cons] using h
    simp only [List.cons_append, takeDigits, hd.1, if_true]
    rw [show ds2.append r = ds2 ++ r from rfl, takeDigits_exact ds2 r hd.2 hr]

theorem numDelim_headNotDigit (rest : List Char) (hr : numDelim rest = true) :
    headNotDigit rest = true := by
  cases rest with
  | nil => rfl
  | cons c r =>
    simp only [numDelim, Bool.and_eq_true] at hr
    simpa [headNotDigit] using hr.1.1.1

theorem headNotDigit_append (r2 rest : List Char) (h2 : headNotDigit r2 = true)
    (hr : numDelim rest = true) : headNotDigit (r2 ++ rest) = true := by
  cases r2 with
  | nil => simpa using numDelim_headNotDigit rest hr
  | cons c r => simpa [headNotDigit] using h2

theorem lexNumExp_delim (pre rest : List Char) (hr : numDelim rest = true) :
    lexNumExp pre rest = .ok (pre, rest) := by
  cases rest with
  | nil => rfl
  | cons c r =>
    simp only [numDelim, Bool.and_eq_true] at hr
    have he : ¬(c = 'e' ∨ c = 'E') := by
      rcases hr with ⟨⟨⟨-, h2⟩, h3⟩, h4⟩
      simp at h3 h4
      rintro (h | h) <;> simp_all
    simp [lexNumExp, he]

theorem digitsNZ_all (ds : List Char) (h : digitsNZ ds = true) :
    ds ≠ [] ∧ ds.all isDigitC = true := by
  cases ds with
  | nil => simp [digitsNZ] at h
  | cons c cs =>
    simp only [digitsNZ, Bool.and_eq_true] at h
    exact ⟨by simp, by simp [List.all_cons, h.1, h.2]⟩

theorem expOk_lex (pre fe rest : List Char) (hf : expOk fe = true) (hr : numDelim rest = true) :
    lexNumExp pre (fe ++ rest) = .ok (pre ++ fe, rest) := by
  cases fe with
  | nil => simpa using lexNumExp_delim pre rest hr
  | cons c r =>
    simp only [expOk, Bool.and_eq_true] at hf
    obtain ⟨hc, hm⟩ := hf
    have hc2 : c = 'e' ∨ c = 'E' := by
      rcases Bool.or_eq_true _ _ |>.mp hc with h | h <;> simp at h <;> [exact Or.inl h; exact Or.inr h]
    show lexNumExp pre (c :: (r ++ rest)) = _
    cases r with
    | nil => simp at hm
    | cons s r2 =>
      by_cases hs : s = '+' ∨ s = '-'
      · have hd : digitsNZ r2 = true := by simpa [if_pos hs] using hm
        obtain ⟨hne, hall⟩ := digitsNZ_all r2 hd
        have ht : takeDigits (r2 ++ rest) = (r2, rest) :=
          takeDigits_exact r2 rest hall (numDelim_headNotDigit rest hr)
        cases r2 with
        | nil => exact absurd rfl hne
        | cons d ds2 =>
          simp only [List.cons_append, lexNumExp, if_pos hc2, if_pos hs]
          simp only [← List.cons_append, ht]
          simp
      · have hd : digitsNZ (s :: r2) = true := by simpa [if_neg hs] using hm
        obtain ⟨hne, hall⟩ := digitsNZ_all (s :: r2) hd
        have ht : takeDigits ((s :: r2) ++ rest) = (s :: r2, rest) :=
          takeDigits_exact (s :: r2) rest hall (numDelim_headNotDigit rest hr)
        simp only [List.cons_append, lexNumExp, if_pos hc2, if_neg hs]
        simp only [← List.cons_append, ht]
        simp


theorem fracExpOk_cases (fe : List Char) (h : fracExpOk fe = true) :
    (expOk fe = true ∧ ∀ fr, fe ≠ '.' :: fr) ∨
    (∃ fr fs r2, fe = '.' :: fr ∧ takeDigits fr = (fs, r2) ∧ fs ≠ [] ∧ expOk r2 = true) := by
  cases fe with
  | nil => exact Or.inl ⟨by simpa [fracExpOk] using h, by simp⟩
  | cons c fr =>
    by_cases hc : c = '.'
    · subst hc
      right
      simp only [fracExpOk] at h
      cases htd : takeDigits fr with
      | mk fs r2 =>
        rw [htd] at h
        cases fs with
        | nil => simp at h
        | cons f fs2 => exact ⟨fr, f :: fs2, r2, rfl, htd, by simp, by simpa using h⟩
    · left
      refine ⟨?_, fun fr2 heq => hc (by injection heq)⟩
      rw [fracExpOk.eq_def] at h
      split at h
      · rename_i heq; injection heq with h1 _; exact absurd h1 hc
      · exact h

theorem lexNum_signed_core (sgn : List Char) (core rest : List Char)
    (hc : goodNumCore core = true) (hr : numDelim rest = true) :
    (match (match core ++ rest with
            | c :: r1 =>
              if c = '0' then (['0'], r1)
              else if isDigitC c = true then takeDigits (core ++ rest)
              else ([], core ++ rest)
            | [] => ([], [])) with
     | ([], _) => Except.error (GoErr.synErr "invalid number literal")
     | (ds, cs2) =>
       match cs2 with
       | c :: r1 =>
         if c = '.' then
           (match takeDigits r1 with
            | ([], _) =>
              Except.error (GoErr.synErr "invalid character after decimal point in numeric literal")
            | (fs, cs3) => lexNumExp (sgn ++ ds ++ '.' :: fs) cs3)
         else lexNumExp (sgn ++ ds) cs2
       | [] => Except.ok (sgn ++ ds, [])) = Except.ok (sgn ++ core, rest) := by
  cases core with
  | nil => simp [goodNumCore] at hc
  | cons c r =>
    simp only [goodNumCore] at hc
    by_cases h0 : c = '0'
    · subst h0
      rw [if_pos rfl] at hc
      rcases fracExpOk_cases r hc with ⟨hexp, hnb⟩ | ⟨fr, fs, r2, rfl, htd, hfs, hexp⟩
      · cases r with
        | nil =>
          cases rest with
          | nil => simp
          | cons c2 r3 =>
            have hdot : ¬ c2 = '.' := by
              simp only [numDelim, Bool.and_eq_true] at hr
              simpa using hr.1.1.2
            simp [hdot, lexNumExp_delim (sgn ++ ['0']) (c2 :: r3) hr]
        | cons c2 fr =>
          have hdot : ¬ c2 = '.' := fun he => hnb fr (by rw [he])
          have := expOk_lex (sgn ++ ['0']) (c2 :: fr) rest hexp hr
          simp only [List.cons_append] at this ⊢
          simp [hdot, this]
      · have hsound := takeDigits_sound fr
        rw [htd] at hsound
        obtain ⟨hfr, hall, hnd⟩ := hsound
        have ht2 : takeDigits (fr ++ rest) = (fs, r2 ++ rest) := by
          conv_lhs => rw [hfr, List.append_assoc]
          exact takeDigits_exact fs (r2 ++ rest) hall (headNotDigit_append r2 rest hnd hr)
        cases fs with
        | nil => exact absurd rfl hfs
        | cons f fs2 =>
          have := expOk_lex (sgn ++ ['0'] ++ '.' :: (f :: fs2)) r2 rest hexp hr
          simp only [List.cons_append] at this ⊢
          simp [ht2]
          simpa [hfr] using this
    · have hd : isDigitC c = true := by
        by_cases hd2 : isDigitC c = true
        · exact hd2
        · rw [if_neg h0, if_neg hd2] at hc; exact absurd hc (by simp)
      rw [if_neg h0, if_pos hd] at hc
      cases htd : takeDigits (c :: r) with
      | mk ds fe =>
        rw [htd] at hc
        have hsound := takeDigits_sound (c :: r)
        rw [htd] at hsound
        obtain ⟨hcr, hall, hnd2⟩ := hsound
        have hds : ∃ d ds2, ds = d :: ds2 := by
          simp only [takeDigits, hd, if_true] at htd
          cases htd2 : takeDigits r with
          | mk a b =>
            rw [htd2] at htd
            exact ⟨c, a, by injection htd with h1 _; exact h1.symm⟩
        obtain ⟨d, ds2, rfl⟩ := hds
        have ht2 : takeDigits ((c :: r) ++ rest) = (d :: ds2, fe ++ rest) := by
          conv_lhs => rw [hcr, List.append_assoc]
          exact takeDigits_exact (d :: ds2) (fe ++ rest) hall
            (headNotDigit_append fe rest hnd2 hr)
        rcases fracExpOk_cases fe hc with ⟨hexp, hnb⟩ | ⟨fr, fs, r2, rfl, htd3, hfs, hexp⟩
        · cases fe with
          | nil =>
            cases rest with
            | nil =>
              simp only [List.cons_append, List.append_nil] at ht2 ⊢
              simp [h0, hd, ht2]
              simp at hcr
              exact ⟨hcr.1.symm, hcr.2.symm⟩
            | cons c2 r3 =>
              have hdot : ¬ c2 = '.' := by
                simp only [numDelim, Bool.and_eq_true] at hr
                simpa using hr.1.1.2
              have := lexNumExp_delim (sgn ++ d :: ds2) (c2 :: r3) hr
              simp only [List.cons_append, List.append_nil] at ht2 ⊢
              simp [h0, hd, ht2, hdot, this]
              simp at hcr
              exact ⟨hcr.1.symm, hcr.2.symm⟩
          | cons c2 fr =>
            have hdot : ¬ c2 = '.' := fun he => hnb fr (by rw [he])
            have := expOk_lex (sgn ++ d :: ds2) (c2 :: fr) rest hexp hr
            simp only [List.cons_append] at this ht2 ⊢
            simp [h0, hd, ht2, hdot, this]
            simp at hcr
            exact ⟨hcr.1.symm, hcr.2.symm⟩
        · have hsound3 := takeDigits_sound fr
          rw [htd3] at hsound3
          obtain ⟨hfr, hall3, hnd3⟩ := hsound3
          have ht4 : takeDigits (fr ++ rest) = (fs, r2 ++ rest) := by
            conv_lhs => rw [hfr, List.append_assoc]
            exact takeDigits_exact fs (r2 ++ rest) hall3 (headNotDigit_append r2 rest hnd3 hr)
          cases fs with
          | nil => exact absurd rfl hfs
          | cons f fs2 =>
            have := expOk_lex (sgn ++ (d :: ds2) ++ '.' :: (f :: fs2)) r2 rest hexp hr
            simp only [List.cons_append] at this ht2 ht4 ⊢
            simp [h0, hd, ht2, ht4]
            simpa [hcr, hfr] using this

theorem lexNum_good (lit rest : List Char) (h : goodNumLit lit = true)
    (hr : numDelim rest = true) : lexNum (lit ++ rest) = .ok (lit, rest) := by
  cases lit with
  | nil => simp [goodNumLit, goodNumCore] at h
  | cons c r =>
    by_cases hneg : c = '-'
    · subst hneg
      simp only [goodNumLit] at h
      simp only [List.cons_append, lexNum, if_true]
      exact lexNum_signed_core ['-'] r rest h hr
    · have hcore : goodNumCore (c :: r) = true := by
        rw [goodNumLit.eq_def] at h
        split at h
        · rename_i heq; injection heq with h1 _; exact absurd h1 hneg
        · exact h
      simp only [List.cons_append, lexNum, hneg, if_false]
      exact lexNum_signed_core [] (c :: r) rest hcore hr


theorem goodNumLit_nonempty (lit : List Char) (h : goodNumLit lit = true) :
    ∃ c r, lit = c :: r ∧ (c = '-' ∨ isDigitC c = true) := by
  cases lit with
  | nil => simp [goodNumLit, goodNumCore] at h
  | cons c r =>
    refine ⟨c, r, rfl, ?_⟩
    by_cases hneg : c = '-'
    · exact Or.inl hneg
    · right
      have hcore : goodNumCore (c :: r) = true := by
        rw [goodNumLit.eq_def] at h
        split at h
        · rename_i heq; injection heq with h1 _; exact absurd h1 hneg
        · exact h
      simp only [goodNumCore] at hcore
      by_cases h0 : c = '0'
      · subst h0; decide
      · by_cases hd : isDigitC c = true
        · exact hd
        · rw [if_neg h0, if_neg hd] at hcore; exact absurd hcore (by simp)

theorem isDigitC_toNat (c : Char) (h : isDigitC c = true) :
    48 ≤ c.toNat ∧ c.toNat ≤ 57 := by
  simp only [isDigitC, Bool.and_eq_true, decide_eq_true_eq] at h
  obtain ⟨h1, h2⟩ := h
  constructor
  · exact h1
  · exact h2

theorem digit_notEq (c d : Char) (h : isDigitC c = true) (hd : ¬ (48 ≤ d.toNat ∧ d.toNat ≤ 57)) :
    ¬ c = d := by
  intro he
  subst he
  exact hd (isDigitC_toNat c h)

theorem digit_notSpace (c : Char) (h : isDigitC c = true) : isSpaceC c = false := by
  obtain ⟨h1, h2⟩ := isDigitC_toNat c h
  simp only [isSpaceC, Bool.or_eq_false_iff, decide_eq_false_iff_not]
  refine ⟨⟨⟨?_, ?_⟩, ?_⟩, ?_⟩ <;>
    · intro he; subst he; exact absurd h1 (by decide)

theorem ntAux_num (lit cs : List Char) (stk : List TkState) (ts : TkState)
    (h : goodNumLit lit = true) (hd : numDelim cs = true) (hv : valueAllowedB ts = true) :
    ntAux (lit ++ cs) stk ts = .ok (.num lit) ⟨cs, stk, valueEndS ts⟩ := by
  obtain ⟨c, r, rfl, hc⟩ := goodNumLit_nonempty lit h
  have hlex := lexNum_good (c :: r) cs h hd
  rcases hc with hneg | hdig
  · subst hneg
    simp +decide [ntAux, hv, List.cons_append] at hlex ⊢
    simp [hlex]
  · have k1 := digit_notSpace c hdig
    have k2 := digit_notEq c '[' hdig (by decide)
    have k3 := digit_notEq c ']' hdig (by decide)
    have k4 := digit_notEq c lbraceC hdig (by decide)
    have k5 := digit_notEq c rbraceC hdig (by decide)
    have k6 := digit_notEq c ':' hdig (by decide)
    have k7 := digit_notEq c ',' hdig (by decide)
    have k8 := digit_notEq c '"' hdig (by decide)
    simp only [List.cons_append] at hlex ⊢
    simp only [ntAux, k1, k2, k3, k4, k5, k6, k7, k8, hdig, hv, Bool.false_eq_true, if_false,
      Bool.or_true, if_true]
    simp [hlex]


theorem space_numDelim (c0 : Char) (h : isSpaceC c0 = true) (x : List Char) :
    numDelim (c0 :: x) = true := by
  simp only [isSpaceC, Bool.or_eq_true, decide_eq_true_eq] at h
  rcases h with ((h | h) | h) | h <;> subst h <;> simp +decide [numDelim]

theorem numDelim_ws (clw x : List Char) (h : wsOnlyL clw = true) (hx : numDelim x = true) :
    numDelim (clw ++ x) = true := by
  cases clw with
  | nil => simpa using hx
  | cons c0 clw2 =>
    have hc : isSpaceC c0 = true := by
      simp only [wsOnlyL, List.all_cons, Bool.and_eq_true] at h
      exact h.1
    exact space_numDelim c0 hc _

theorem numDelim_rbrace (x : List Char) : numDelim (rbraceC :: x) = true := by
  simp +decide [numDelim]

theorem numDelim_rbrack (x : List Char) : numDelim (']' :: x) = true := by
  simp +decide [numDelim]

theorem numDelim_comma (x : List Char) : numDelim (',' :: x) = true := by
  simp +decide [numDelim]

theorem marshalStringL_shape (s : String) (tail : List Char) :
    marshalStringL s ++ tail = '"' :: (escapeList s.data ++ '"' :: tail) := by
  simp [marshalStringL]


theorem jelemsFromDec_step (fuel : Nat) (st : DecState) :
    jelemsFromDec (fuel + 1) st =
      (match nextToken st with
       | .err e st1 => .err e st1
       | .ok t st1 =>
         match t with
         | .rbrack => .ok [] st1
         | .lbrace =>
           match jmembersFromDec fuel st1 with
           | .err e st2 => .err e st2
           | .ok b st2 =>
             match jelemsFromDec fuel st2 with
             | .ok rest st3 => .ok (.branch b :: rest) st3
             | .err e st3 => .err e st3
         | .lbrack =>
           match jelemsFromDec fuel st1 with
           | .err e st2 => .err e st2
           | .ok inner st2 =>
             match jelemsFromDec fuel st2 with
             | .ok rest st3 => .ok (.arr inner :: rest) st3
             | .err e st3 => .err e st3
         | .str s =>
           match jelemsFromDec fuel st1 with
           | .ok rest st2 => .ok (.str s :: rest) st2
           | .err e st2 => .err e st2
         | .num lit =>
           match jelemsFromDec fuel st1 with
           | .ok rest st2 => .ok (.num lit :: rest) st2
           | .err e st2 => .err e st2
         | .bool b =>
           match jelemsFromDec fuel st1 with
           | .ok rest st2 => .ok (.bool b :: rest) st2
           | .err e st2 => .err e st2
         | .null =>
           match jelemsFromDec fuel st1 with
           | .ok rest st2 => .ok (.null :: rest) st2
           | .err e st2 => .err e st2
         | .rbrace =>
           match jelemsFromDec fuel st1 with
           | .ok rest st2 => .ok (.null :: rest) st2
           | .err e st2 => .err e st2) := rfl

mutual

/-- On rendered text (under any whitespace-only scheme) the generic
value parser returns exactly the rendered value and stops right after
it, for any lead-in the tokenizer normalizes to a value-allowed state.
-/
theorem jval_render : ∀ (v : GoVal), decodableV v = true → ∀ (w : WsScheme), wsOK w →
    ∀ (fuel d : Nat) (stk : List TkState) (ts tsV : TkState) (lead rest : List Char),
    jcostV v ≤ fuel → numDelim rest = true →
    (∀ cs, ntAux (lead ++ cs) stk ts = ntAux cs stk tsV) → valueAllowedB tsV = true →
    jvalueFromDec fuel ⟨lead ++ (renderVal w d v ++ rest), stk, ts⟩ =
      .ok v ⟨rest, stk, valueEndS tsV⟩
  | .str s, hdec, w, hw, fuel, d, stk, ts, tsV, lead, rest, hfuel, hrest, hlead, hv => by
    obtain ⟨f2, rfl⟩ : ∃ f2, fuel = f2 + 1 + 1 :=
      ⟨fuel - 2, by simp [jcostV] at hfuel; omega⟩
    rw [jvalueFromDec_step]
    have hnt : nextToken ⟨lead ++ (renderVal w d (.str s) ++ rest), stk, ts⟩ =
        .ok (.str s) ⟨rest, stk, valueEndS tsV⟩ := by
      show ntAux _ _ _ = _
      rw [hlead]
      simp only [renderVal]
      rw [marshalStringL_shape]
      exact ntAux_str_val s rest stk tsV hv
    simp only [hnt]
    rfl
  | .num lit, hdec, w, hw, fuel, d, stk, ts, tsV, lead, rest, hfuel, hrest, hlead, hv => by
    obtain ⟨f2, rfl⟩ : ∃ f2, fuel = f2 + 1 + 1 :=
      ⟨fuel - 2, by simp [jcostV] at hfuel; omega⟩
    rw [jvalueFromDec_step]
    have hlit : goodNumLit lit = true := by simpa [decodableV] using hdec
    have hnt : nextToken ⟨lead ++ (renderVal w d (.num lit) ++ rest), stk, ts⟩ =
        .ok (.num lit) ⟨rest, stk, valueEndS tsV⟩ := by
      show ntAux _ _ _ = _
      rw [hlead]
      simp only [renderVal]
      exact ntAux_num lit rest stk tsV hlit hrest hv
    simp only [hnt]
    rfl
  | .bool true, hdec, w, hw, fuel, d, stk, ts, tsV, lead, rest, hfuel, hrest, hlead, hv => by
    obtain ⟨f2, rfl⟩ : ∃ f2, fuel = f2 + 1 + 1 :=
      ⟨fuel - 2, by simp [jcostV] at hfuel; omega⟩
    rw [jvalueFromDec_step]
    have hnt : nextToken ⟨lead ++ (renderVal w d (.bool true) ++ rest), stk, ts⟩ =
        .ok (.bool true) ⟨rest, stk, valueEndS tsV⟩ := by
      show ntAux _ _ _ = _
      rw [hlead]
      simp only [renderVal, List.cons_append, List.nil_append]
      exact ntAux_kwTrue rest stk tsV hv
    simp only [hnt]
    rfl
  | .bool false, hdec, w, hw, fuel, d, stk, ts, tsV, lead, rest, hfuel, hrest, hlead, hv => by
    obtain ⟨f2, rfl⟩ : ∃ f2, fuel = f2 + 1 + 1 :=
      ⟨fuel - 2, by simp [jcostV] at hfuel; omega⟩
    rw [jvalueFromDec_step]
    have hnt : nextToken ⟨lead ++ (renderVal w d (.bool false) ++ rest), stk, ts⟩ =
        .ok (.bool false) ⟨rest, stk, valueEndS tsV⟩ := by
      show ntAux _ _ _ = _
      rw [hlead]
      simp only [renderVal, List.cons_append, List.nil_append]
      exact ntAux_kwFalse rest stk tsV hv
    simp only [hnt]
    rfl
  | .null, hdec, w, hw, fuel, d, stk, ts, tsV, lead, rest, hfuel, hrest, hlead, hv => by
    obtain ⟨f2, rfl⟩ : ∃ f2, fuel = f2 + 1 + 1 :=
      ⟨fuel - 2, by simp [jcostV] at hfuel; omega⟩
    rw [jvalueFromDec_step]
    have hnt : nextToken ⟨lead ++ (renderVal w d .null ++ rest), stk, ts⟩ =
        .ok .null ⟨rest, stk, valueEndS tsV⟩ := by
      show ntAux _ _ _ = _
      rw [hlead]
      simp only [renderVal, List.cons_append, List.nil_append]
      exact ntAux_kwNull rest stk tsV hv
    simp only [hnt]
    rfl
  | .comment text, hdec, w, hw, fuel, d, stk, ts, tsV, lead, rest, hfuel, hrest, hlead, hv => by
    simp [decodableV] at hdec
  | .branch items, hdec, w, hw, fuel, d, stk, ts, tsV, lead, rest, hfuel, hrest, hlead, hv => by
    have hitems : decodableItems items = true := by simpa [decodableV] using hdec
    obtain ⟨f2, rfl⟩ : ∃ f2, fuel = f2 + 1 + 1 :=
      ⟨fuel - 2, by simp [jcostV] at hfuel; omega⟩
    have hcost : jcostItems items ≤ f2 := by simp [jcostV] at hfuel; omega
    rw [jvalueFromDec_step]
    have hnt : nextToken ⟨lead ++ (renderVal w d (.branch items) ++ rest), stk, ts⟩ =
        .ok .lbrace ⟨((if items.isEmpty then []
          else w.afterOpen (d + 1) ++ renderItems w (d + 1) items ++ w.beforeClose d) ++
            [rbraceC]) ++ rest, tsV :: stk, .objS⟩ := by
      show ntAux _ _ _ = _
      rw [hlead]
      simp only [renderVal, List.cons_append]
      exact ntAux_lbrace _ stk tsV hv
    simp only [hnt, jvalueAfterTok]
    have key : jmembersFromDec f2 ⟨((if items.isEmpty then []
          else w.afterOpen (d + 1) ++ renderItems w (d + 1) items ++ w.beforeClose d) ++
            [rbraceC]) ++ rest, tsV :: stk, .objS⟩ =
        .ok items ⟨rest, stk, valueEndS tsV⟩ := by
      by_cases hemp : items.isEmpty
      · have h0 : items = [] := by simpa [List.isEmpty_iff] using hemp
        subst h0
        have := jmembers_render [] rfl w hw f2 (d + 1) stk tsV .objS .objS [] [] rest
          (by simpa [jcostItems] using hcost) rfl (fun cs => rfl)
          (fun _ => Or.inl rfl) (fun h => absurd rfl h)
        simpa [renderItems] using this
      · have hne0 : items ≠ [] := by simpa [List.isEmpty_iff] using hemp
        have := jmembers_render items hitems w hw f2 (d + 1) stk tsV .objS .objS
          (w.afterOpen (d + 1)) (w.beforeClose d) rest hcost (hw.2.2.1 d)
          (fun cs => ntAux_ws _ (hw.1 (d + 1)) cs _ _)
          (fun h => absurd h hne0) (fun _ => Or.inl rfl)
        rw [if_neg hemp]
        rw [show (w.afterOpen (d + 1) ++ renderItems w (d + 1) items ++ w.beforeClose d) ++
            [rbraceC] ++ rest =
          w.afterOpen (d + 1) ++ (renderItems w (d + 1) items ++
            (w.beforeClose d ++ rbraceC :: rest)) from by simp]
        exact this
    rw [key]
  | .arr elems, hdec, w, hw, fuel, d, stk, ts, tsV, lead, rest, hfuel, hrest, hlead, hv => by
    have helems : decodableElems elems = true := by simpa [decodableV] using hdec
    obtain ⟨f2, rfl⟩ : ∃ f2, fuel = f2 + 1 + 1 :=
      ⟨fuel - 2, by simp [jcostV] at hfuel; omega⟩
    have hcost : jcostElems elems ≤ f2 := by simp [jcostV] at hfuel; omega
    rw [jvalueFromDec_step]
    have hnt : nextToken ⟨lead ++ (renderVal w d (.arr elems) ++ rest), stk, ts⟩ =
        .ok .lbrack ⟨((if elems.isEmpty then []
          else w.afterOpen (d + 1) ++ renderElems w (d + 1) elems ++ w.beforeClose d) ++
            [']']) ++ rest, tsV :: stk, .arrS⟩ := by
      show ntAux _ _ _ = _
      rw [hlead]
      simp only [renderVal, List.cons_append]
      exact ntAux_lbrack _ stk tsV hv
    simp only [hnt, jvalueAfterTok]
    have key : jelemsFromDec f2 ⟨((if elems.isEmpty then []
          else w.afterOpen (d + 1) ++ renderElems w (d + 1) elems ++ w.beforeClose d) ++
            [']']) ++ rest, tsV :: stk, .arrS⟩ =
        .ok elems ⟨rest, stk, valueEndS tsV⟩ := by
      by_cases hemp : elems.isEmpty
      · have h0 : elems = [] := by simpa [List.isEmpty_iff] using hemp
        subst h0
        have := jelems_render [] rfl w hw f2 (d + 1) stk tsV .arrS .arrS [] [] rest
          (by simpa [jcostElems] using hcost) rfl (fun cs => rfl)
          (fun _ => Or.inl rfl) (fun h => absurd rfl h)
        simpa [renderElems] using this
      · have hne0 : elems ≠ [] := by simpa [List.isEmpty_iff] using hemp
        have := jelems_render elems helems w hw f2 (d + 1) stk tsV .arrS .arrS
          (w.afterOpen (d + 1)) (w.beforeClose d) rest hcost (hw.2.2.1 d)
          (fun cs => ntAux_ws _ (hw.1 (d + 1)) cs _ _)
          (fun h => absurd h hne0) (fun _ => ⟨rfl, rfl⟩)
        rw [if_neg hemp]
        rw [show (w.afterOpen (d + 1) ++ renderElems w (d + 1) elems ++ w.beforeClose d) ++
            [']'] ++ rest =
          w.afterOpen (d + 1) ++ (renderElems w (d + 1) elems ++
            (w.beforeClose d ++ ']' :: rest)) from by simp]
        exact this
    rw [key]
termination_by v _ _ _ _ _ _ _ _ _ _ _ _ _ _ => 2 * sizeOf v
decreasing_by
  all_goals try simp_wf
  all_goals try subst_vars
  all_goals try simp
  all_goals try omega
  all_goals try (rename_i x _; cases x <;> simp <;> omega)

/-- Object members: the parser collects exactly the rendered items and
consumes the closing brace, popping back to the outer state. -/
theorem jmembers_render : ∀ (items : List TreeItem), decodableItems items = true →
    ∀ (w : WsScheme), wsOK w →
    ∀ (fuel d : Nat) (stk0 : List TkState) (tsOut tsIn tsV : TkState)
      (lead clw rest0 : List Char),
    jcostItems items ≤ fuel → wsOnlyL clw = true →
    (∀ cs, ntAux (lead ++ cs) (tsOut :: stk0) tsIn = ntAux cs (tsOut :: stk0) tsV) →
    (items = [] → (tsV = .objS ∨ tsV = .objAfter)) →
    (items ≠ [] → (tsV = .objS ∨ tsV = .objKey)) →
    jmembersFromDec fuel
        ⟨lead ++ (renderItems w d items ++ (clw ++ rbraceC :: rest0)), tsOut :: stk0, tsIn⟩
      = .ok items ⟨rest0, stk0, valueEndS tsOut⟩
  | [], hdec, w, hw, fuel, d, stk0, tsOut, tsIn, tsV, lead, clw, rest0, hfuel, hclw, hlead,
      hemp, hne => by
    obtain ⟨f2, rfl⟩ : ∃ f2, fuel = f2 + 1 := ⟨fuel - 1, by simp [jcostItems] at hfuel; omega⟩
    rw [jmembersFromDec_step]
    have hnt : nextToken ⟨lead ++ (renderItems w d [] ++ (clw ++ rbraceC :: rest0)),
        tsOut :: stk0, tsIn⟩ = .ok .rbrace ⟨rest0, stk0, valueEndS tsOut⟩ := by
      show ntAux _ _ _ = _
      rw [hlead]
      simp only [renderItems, List.nil_append]
      rw [ntAux_ws clw hclw]
      exact ntAux_rbrace rest0 stk0 tsOut tsV (hemp rfl)
    simp only [hnt]
  | (k, v) :: restI, hdec, w, hw, fuel, d, stk0, tsOut, tsIn, tsV, lead, clw, rest0, hfuel,
      hclw, hlead, hemp, hne => by
    obtain ⟨ks, rfl⟩ : ∃ ks, k = GoVal.str ks := by
      cases k <;> simp [decodableItems] at hdec <;> exact ⟨_, rfl⟩
    have hdv : decodableV v = true ∧ decodableItems restI = true := by
      simpa [decodableItems, Bool.and_eq_true] using hdec
    obtain ⟨f2, rfl⟩ : ∃ f2, fuel = f2 + 1 := ⟨fuel - 1, by simp [jcostItems] at hfuel; omega⟩
    have hcv : jcostV v ≤ f2 := by simp [jcostItems] at hfuel; omega
    have hcr : jcostItems restI ≤ f2 := by simp [jcostItems] at hfuel; omega
    rw [jmembersFromDec_step]
    have hnt : nextToken ⟨lead ++ (renderItems w d ((GoVal.str ks, v) :: restI) ++
          (clw ++ rbraceC :: rest0)), tsOut :: stk0, tsIn⟩ =
        .ok (.str ks) ⟨(':' :: w.afterColon) ++ (renderVal w d v ++
          ((if restI.isEmpty then [] else ',' :: w.afterComma d) ++
            (renderItems w d restI ++ (clw ++ rbraceC :: rest0)))), tsOut :: stk0,
          .objColon⟩ := by
      show ntAux _ _ _ = _
      rw [hlead]
      rw [show renderItems w d ((GoVal.str ks, v) :: restI) ++ (clw ++ rbraceC :: rest0) =
        '"' :: (escapeList ks.data ++ '"' :: ((':' :: w.afterColon) ++ (renderVal w d v ++
          ((if restI.isEmpty then [] else ',' :: w.afterComma d) ++
            (renderItems w d restI ++ (clw ++ rbraceC :: rest0)))))) from by
        simp [renderItems, renderKey, marshalStringL]]
      exact ntAux_str_key ks _ (tsOut :: stk0) tsV (hne (by simp))
    simp only [hnt]
    have hval := jval_render v hdv.1 w hw f2 d (tsOut :: stk0) .objColon .objV
      (':' :: w.afterColon)
      ((if restI.isEmpty then [] else ',' :: w.afterComma d) ++
        (renderItems w d restI ++ (clw ++ rbraceC :: rest0)))
      hcv
      (by
        cases restI with
        | nil =>
          simp only [List.isEmpty_nil, if_true, renderItems, List.nil_append]
          exact numDelim_ws clw _ hclw (numDelim_rbrace rest0)
        | cons it2 restI2 =>
          simp only [List.isEmpty_cons, if_false, List.cons_append]
          exact numDelim_comma _)
      (fun cs => by rw [List.cons_append, ntAux_colon, ntAux_ws _ hw.2.2.2]) rfl
    rw [show valueEndS TkState.objV = TkState.objAfter from rfl] at hval
    simp only [hval]
    have hrest := jmembers_render restI hdv.2 w hw f2 d stk0 tsOut .objAfter
      (if restI.isEmpty then .objAfter else .objKey)
      (if restI.isEmpty then [] else ',' :: w.afterComma d) clw rest0 hcr hclw
      (by
        cases restI with
        | nil => intro cs; simp
        | cons it2 restI2 =>
          intro cs
          simp only [List.isEmpty_cons, Bool.false_eq_true, if_false, List.cons_append]
          rw [ntAux_comma_obj, ntAux_ws _ (hw.2.1 d)])
      (by intro h0; subst h0; simp)
      (by
        cases restI with
        | nil => intro h0; exact absurd rfl h0
        | cons it2 restI2 => intro _; simp)
    simp only [hrest]
termination_by items _ _ _ _ _ _ _ _ _ _ _ _ _ _ _ _ _ => 2 * sizeOf items
decreasing_by
  all_goals try simp_wf
  all_goals try subst_vars
  all_goals try simp
  all_goals try omega
  all_goals try (rename_i x _; cases x <;> simp <;> omega)

/-- Array elements: the parser collects exactly the rendered elements
and consumes the closing bracket. -/
theorem jelems_render : ∀ (elems : List GoVal), decodableElems elems = true →
    ∀ (w : WsScheme), wsOK w →
    ∀ (fuel d : Nat) (stk0 : List TkState) (tsOut tsIn tsV : TkState)
      (lead clw rest0 : List Char),
    jcostElems elems ≤ fuel → wsOnlyL clw = true →
    (∀ cs, ntAux (lead ++ cs) (tsOut :: stk0) tsIn = ntAux cs (tsOut :: stk0) tsV) →
    (elems = [] → (tsV = .arrS ∨ tsV = .arrV)) →
    (elems ≠ [] → valueAllowedB tsV = true ∧ valueEndS tsV = .arrV) →
    jelemsFromDec fuel
        ⟨lead ++ (renderElems w d elems ++ (clw ++ ']' :: rest0)), tsOut :: stk0, tsIn⟩
      = .ok elems ⟨rest0, stk0, valueEndS tsOut⟩
  | [], hdec, w, hw, fuel, d, stk0, tsOut, tsIn, tsV, lead, clw, rest0, hfuel, hclw, hlead,
      hemp, hne => by
    obtain ⟨f2, rfl⟩ : ∃ f2, fuel = f2 + 1 := ⟨fuel - 1, by simp [jcostElems] at hfuel; omega⟩
    rw [jelemsFromDec_step]
    have hnt : nextToken ⟨lead ++ (renderElems w d [] ++ (clw ++ ']' :: rest0)),
        tsOut :: stk0, tsIn⟩ = .ok .rbrack ⟨rest0, stk0, valueEndS tsOut⟩ := by
      show ntAux _ _ _ = _
      rw [hlead]
      simp only [renderElems, List.nil_append]
      rw [ntAux_ws clw hclw]
      exact ntAux_rbrack rest0 stk0 tsOut tsV (hemp rfl)
    simp only [hnt]
  | e :: restE, hdec, w, hw, fuel, d, stk0, tsOut, tsIn, tsV, lead, clw, rest0, hfuel, hclw,
      hlead, hemp, hne => by
    have hde : decodableV e = true ∧ decodableElems restE = true := by
      simpa [decodableElems, Bool.and_eq_true] using hdec
    obtain ⟨f2, rfl⟩ : ∃ f2, fuel = f2 + 1 := ⟨fuel - 1, by simp [jcostElems] at hfuel; omega⟩
    have hcr : jcostElems restE ≤ f2 := by simp [jcostElems] at hfuel; omega
    obtain ⟨hvall, hvend⟩ := hne (by simp)
    rw [jelemsFromDec_step]
    cases e with
    | comment text => simp [decodableV] at hde
    | str s =>
      have hnt : nextToken ⟨lead ++ (renderElems w d (GoVal.str s :: restE) ++
            (clw ++ ']' :: rest0)), tsOut :: stk0, tsIn⟩ =
          .ok (.str s) ⟨(if restE.isEmpty then [] else ',' :: w.afterComma d) ++
            (renderElems w d restE ++ (clw ++ ']' :: rest0)), tsOut :: stk0,
            valueEndS tsV⟩ := by
        show ntAux _ _ _ = _
        rw [hlead]
        rw [show renderElems w d (GoVal.str s :: restE) ++ (clw ++ ']' :: rest0) =
          '"' :: (escapeList s.data ++ '"' :: ((if restE.isEmpty then []
            else ',' :: w.afterComma d) ++ (renderElems w d restE ++ (clw ++ ']' :: rest0))))
          from by simp [renderElems, renderVal, marshalStringL]]
        exact ntAux_str_val s _ _ tsV hvall
      rw [hvend] at hnt
      simp only [hnt]
      simp only [jelems_cont restE hde.2 w hw f2 d stk0 tsOut clw rest0 hcr hclw]
    | num lit =>
      have hlit : goodNumLit lit = true := by simpa [decodableV] using hde.1
      have hnd : numDelim ((if restE.isEmpty then [] else ',' :: w.afterComma d) ++
          (renderElems w d restE ++ (clw ++ ']' :: rest0))) = true := by
        cases restE with
        | nil =>
          simp only [List.isEmpty_nil, if_true, renderElems, List.nil_append]
          exact numDelim_ws clw _ hclw (numDelim_rbrack rest0)
        | cons e2 restE2 =>
          simp only [List.isEmpty_cons, if_false, List.cons_append]
          exact numDelim_comma _
      have hnt : nextToken ⟨lead ++ (renderElems w d (GoVal.num lit :: restE) ++
            (clw ++ ']' :: rest0)), tsOut :: stk0, tsIn⟩ =
          .ok (.num lit) ⟨(if restE.isEmpty then [] else ',' :: w.afterComma d) ++
            (renderElems w d restE ++ (clw ++ ']' :: rest0)), tsOut :: stk0,
            valueEndS tsV⟩ := by
        show ntAux _ _ _ = _
        rw [hlead]
        rw [show renderElems w d (GoVal.num lit :: restE) ++ (clw ++ ']' :: rest0) =
          lit ++ ((if restE.isEmpty then [] else ',' :: w.afterComma d) ++
            (renderElems w d restE ++ (clw ++ ']' :: rest0))) from by
          simp [renderElems, renderVal]]
        exact ntAux_num lit _ _ tsV hlit hnd hvall
      rw [hvend] at hnt
      simp only [hnt]
      simp only [jelems_cont restE hde.2 w hw f2 d stk0 tsOut clw rest0 hcr hclw]
    | bool b =>
      cases b with
      | true =>
        have hnt : nextToken ⟨lead ++ (renderElems w d (GoVal.bool true :: restE) ++
              (clw ++ ']' :: rest0)), tsOut :: stk0, tsIn⟩ =
            .ok (.bool true) ⟨(if restE.isEmpty then [] else ',' :: w.afterComma d) ++
              (renderElems w d restE ++ (clw ++ ']' :: rest0)), tsOut :: stk0,
              valueEndS tsV⟩ := by
          show ntAux _ _ _ = _
          rw [hlead]
          rw [show renderElems w d (GoVal.bool true :: restE) ++ (clw ++ ']' :: rest0) =
            't' :: 'r' :: 'u' :: 'e' :: ((if restE.isEmpty then []
              else ',' :: w.afterComma d) ++ (renderElems w d restE ++
                (clw ++ ']' :: rest0))) from by simp [renderElems, renderVal]]
          exact ntAux_kwTrue _ _ tsV hvall
        rw [hvend] at hnt
        simp only [hnt]
        simp only [jelems_cont restE hde.2 w hw f2 d stk0 tsOut clw rest0 hcr hclw]
      | false =>
        have hnt : nextToken ⟨lead ++ (renderElems w d (GoVal.bool false :: restE) ++
              (clw ++ ']' :: rest0)), tsOut :: stk0, tsIn⟩ =
            .ok (.bool false) ⟨(if restE.isEmpty then [] else ',' :: w.afterComma d) ++
              (renderElems w d restE ++ (clw ++ ']' :: rest0)), tsOut :: stk0,
              valueEndS tsV⟩ := by
          show ntAux _ _ _ = _
          rw [hlead]
          rw [show renderElems w d (GoVal.bool false :: restE) ++ (clw ++ ']' :: rest0) =
            'f' :: 'a' :: 'l' :: 's' :: 'e' :: ((if restE.isEmpty then []
              else ',' :: w.afterComma d) ++ (renderElems w d restE ++
                (clw ++ ']' :: rest0))) from by simp [renderElems, renderVal]]
          exact ntAux_kwFalse _ _ tsV hvall
        rw [hvend] at hnt
        simp only [hnt]
        simp only [jelems_cont restE hde.2 w hw f2 d stk0 tsOut clw rest0 hcr hclw]
    | null =>
      have hnt : nextToken ⟨lead ++ (renderElems w d (GoVal.null :: restE) ++
            (clw ++ ']' :: rest0)), tsOut :: stk0, tsIn⟩ =
          .ok .null ⟨(if restE.isEmpty then [] else ',' :: w.afterComma d) ++
            (renderElems w d restE ++ (clw ++ ']' :: rest0)), tsOut :: stk0,
            valueEndS tsV⟩ := by
        show ntAux _ _ _ = _
        rw [hlead]
        rw [show renderElems w d (GoVal.null :: restE) ++ (clw ++ ']' :: rest0) =
          'n' :: 'u' :: 'l' :: 'l' :: ((if restE.isEmpty then []
            else ',' :: w.afterComma d) ++ (renderElems w d restE ++
              (clw ++ ']' :: rest0))) from by simp [renderElems, renderVal]]
        exact ntAux_kwNull _ _ tsV hvall
      rw [hvend] at hnt
      simp only [hnt]
      simp only [jelems_cont restE hde.2 w hw f2 d stk0 tsOut clw rest0 hcr hclw]
    | branch items =>
      have hitems : decodableItems items = true := by simpa [decodableV] using hde.1
      have hci : jcostItems items ≤ f2 := by
        simp [jcostElems, jcostInner] at hfuel; omega
      have hnt : nextToken ⟨lead ++ (renderElems w d (GoVal.branch items :: restE) ++
            (clw ++ ']' :: rest0)), tsOut :: stk0, tsIn⟩ =
          .ok .lbrace ⟨((if items.isEmpty then []
            else w.afterOpen (d + 1) ++ renderItems w (d + 1) items ++ w.beforeClose d) ++
              [rbraceC]) ++ ((if restE.isEmpty then [] else ',' :: w.afterComma d) ++
            (renderElems w d restE ++ (clw ++ ']' :: rest0))),
            tsV :: (tsOut :: stk0), .objS⟩ := by
        show ntAux _ _ _ = _
        rw [hlead]
        rw [show renderElems w d (GoVal.branch items :: restE) ++ (clw ++ ']' :: rest0) =
          lbraceC :: (((if items.isEmpty then []
            else w.afterOpen (d + 1) ++ renderItems w (d + 1) items ++ w.beforeClose d) ++
              [rbraceC]) ++ ((if restE.isEmpty then [] else ',' :: w.afterComma d) ++
            (renderElems w d restE ++ (clw ++ ']' :: rest0)))) from by
          simp [renderElems, renderVal]]
        exact ntAux_lbrace _ _ tsV hvall
      simp only [hnt]
      have key : jmembersFromDec f2 ⟨((if items.isEmpty then []
            else w.afterOpen (d + 1) ++ renderItems w (d + 1) items ++ w.beforeClose d) ++
              [rbraceC]) ++ ((if restE.isEmpty then [] else ',' :: w.afterComma d) ++
            (renderElems w d restE ++ (clw ++ ']' :: rest0))),
            tsV :: (tsOut :: stk0), .objS⟩ =
          .ok items ⟨(if restE.isEmpty then [] else ',' :: w.afterComma d) ++
            (renderElems w d restE ++ (clw ++ ']' :: rest0)), tsOut :: stk0,
            valueEndS tsV⟩ := by
        by_cases hempI : items.isEmpty
        · have h0 : items = [] := by simpa [List.isEmpty_iff] using hempI
          subst h0
          have := jmembers_render [] rfl w hw f2 (d + 1) (tsOut :: stk0) tsV .objS .objS [] []
            ((if restE.isEmpty then [] else ',' :: w.afterComma d) ++
              (renderElems w d restE ++ (clw ++ ']' :: rest0)))
            (by simpa [jcostItems] using hci) rfl (fun cs => rfl)
            (fun _ => Or.inl rfl) (fun h => absurd rfl h)
          simpa [renderItems] using this
        · have hne0 : items ≠ [] := by simpa [List.isEmpty_iff] using hempI
          have := jmembers_render items hitems w hw f2 (d + 1) (tsOut :: stk0) tsV .objS .objS
            (w.afterOpen (d + 1)) (w.beforeClose d)
            ((if restE.isEmpty then [] else ',' :: w.afterComma d) ++
              (renderElems w d restE ++ (clw ++ ']' :: rest0)))
            hci (hw.2.2.1 d)
            (fun cs => ntAux_ws _ (hw.1 (d + 1)) cs _ _)
            (fun h => absurd h hne0) (fun _ => Or.inl rfl)
          rw [if_neg hempI]
          rw [show (w.afterOpen (d + 1) ++ renderItems w (d + 1) items ++ w.beforeClose d) ++
              [rbraceC] ++ ((if restE.isEmpty then [] else ',' :: w.afterComma d) ++
                (renderElems w d restE ++ (clw ++ ']' :: rest0))) =
            w.afterOpen (d + 1) ++ (renderItems w (d + 1) items ++
              (w.beforeClose d ++ rbraceC :: ((if restE.isEmpty then []
                else ',' :: w.afterComma d) ++ (renderElems w d restE ++
                  (clw ++ ']' :: rest0))))) from by simp]
          exact this
      rw [hvend] at key
      simp only [key]
      simp only [jelems_cont restE hde.2 w hw f2 d stk0 tsOut clw rest0 hcr hclw]
    | arr inner =>
      have hinner : decodableElems inner = true := by simpa [decodableV] using hde.1
      have hci : jcostElems inner ≤ f2 := by
        simp [jcostElems, jcostInner] at hfuel; omega
      have hnt : nextToken ⟨lead ++ (renderElems w d (GoVal.arr inner :: restE) ++
            (clw ++ ']' :: rest0)), tsOut :: stk0, tsIn⟩ =
          .ok .lbrack ⟨((if inner.isEmpty then []
            else w.afterOpen (d + 1) ++ renderElems w (d + 1) inner ++ w.beforeClose d) ++
              [']']) ++ ((if restE.isEmpty then [] else ',' :: w.afterComma d) ++
            (renderElems w d restE ++ (clw ++ ']' :: rest0))),
            tsV :: (tsOut :: stk0), .arrS⟩ := by
        show ntAux _ _ _ = _
        rw [hlead]
        rw [show renderElems w d (GoVal.arr inner :: restE) ++ (clw ++ ']' :: rest0) =
          '[' :: (((if inner.isEmpty then []
            else w.afterOpen (d + 1) ++ renderElems w (d + 1) inner ++ w.beforeClose d) ++
              [']']) ++ ((if restE.isEmpty then [] else ',' :: w.afterComma d) ++
            (renderElems w d restE ++ (clw ++ ']' :: rest0)))) from by
          simp [renderElems, renderVal]]
        exact ntAux_lbrack _ _ tsV hvall
      simp only [hnt]
      have key : jelemsFromDec f2 ⟨((if inner.isEmpty then []
            else w.afterOpen (d + 1) ++ renderElems w (d + 1) inner ++ w.beforeClose d) ++
              [']']) ++ ((if restE.isEmpty then [] else ',' :: w.afterComma d) ++
            (renderElems w d restE ++ (clw ++ ']' :: rest0))),
            tsV :: (tsOut :: stk0), .arrS⟩ =
          .ok inner ⟨(if restE.isEmpty then [] else ',' :: w.afterComma d) ++
            (renderElems w d restE ++ (clw ++ ']' :: rest0)), tsOut :: stk0,
            valueEndS tsV⟩ := by
        by_cases hempI : inner.isEmpty
        · have h0 : inner = [] := by simpa [List.isEmpty_iff] using hempI
          subst h0
          have := jelems_render [] rfl w hw f2 (d + 1) (tsOut :: stk0) tsV .arrS .arrS [] []
            ((if restE.isEmpty then [] else ',' :: w.afterComma d) ++
              (renderElems w d restE ++ (clw ++ ']' :: rest0)))
            (by simpa [jcostElems] using hci) rfl (fun cs => rfl)
            (fun _ => Or.inl rfl) (fun h => absurd rfl h)
          simpa [renderElems] using this
        · have hne0 : inner ≠ [] := by simpa [List.isEmpty_iff] using hempI
          have := jelems_render inner hinner w hw f2 (d + 1) (tsOut :: stk0) tsV .arrS .arrS
            (w.afterOpen (d + 1)) (w.beforeClose d)
            ((if restE.isEmpty then [] else ',' :: w.afterComma d) ++
              (renderElems w d restE ++ (clw ++ ']' :: rest0)))
            hci (hw.2.2.1 d)
            (fun cs => ntAux_ws _ (hw.1 (d + 1)) cs _ _)
            (fun h => absurd h hne0) (fun _ => ⟨rfl, rfl⟩)
          rw [if_neg hempI]
          rw [show (w.afterOpen (d + 1) ++ renderElems w (d + 1) inner ++ w.beforeClose d) ++
              [']'] ++ ((if restE.isEmpty then [] else ',' :: w.afterComma d) ++
                (renderElems w d restE ++ (clw ++ ']' :: rest0))) =
            w.afterOpen (d + 1) ++ (renderElems w (d + 1) inner ++
              (w.beforeClose d ++ ']' :: ((if restE.isEmpty then []
                else ',' :: w.afterComma d) ++ (renderElems w d restE ++
                  (clw ++ ']' :: rest0))))) from by simp]
          exact this
      rw [hvend] at key
      simp only [key]
      simp only [jelems_cont restE hde.2 w hw f2 d stk0 tsOut clw rest0 hcr hclw]
termination_by elems _ _ _ _ _ _ _ _ _ _ _ _ _ _ _ _ _ => 2 * sizeOf elems
decreasing_by
  all_goals try simp_wf
  all_goals try subst_vars
  all_goals try simp
  all_goals try omega
  all_goals try (rename_i x _; cases x <;> simp <;> omega)

/-- Continuation after one array element: an optional comma lead, then
the remaining elements. -/
theorem jelems_cont : ∀ (restE : List GoVal), decodableElems restE = true →
    ∀ (w : WsScheme), wsOK w →
    ∀ (fuel d : Nat) (stk0 : List TkState) (tsOut : TkState) (clw rest0 : List Char),
    jcostElems restE ≤ fuel → wsOnlyL clw = true →
    jelemsFromDec fuel ⟨(if restE.isEmpty then [] else ',' :: w.afterComma d) ++
        (renderElems w d restE ++ (clw ++ ']' :: rest0)), tsOut :: stk0, .arrV⟩
      = .ok restE ⟨rest0, stk0, valueEndS tsOut⟩
  | restE, hdec, w, hw, fuel, d, stk0, tsOut, clw, rest0, hfuel, hclw => by
    cases restE with
    | nil =>
      have := jelems_render [] rfl w hw fuel d stk0 tsOut .arrV .arrV [] clw rest0
        (by simpa [jcostElems] using hfuel) hclw (fun cs => rfl) (fun _ => Or.inr rfl)
        (fun h => absurd rfl h)
      simpa using this
    | cons e2 restE2 =>
      have := jelems_render (e2 :: restE2) hdec w hw fuel d stk0 tsOut .arrV .arrC
        (',' :: w.afterComma d) clw rest0 hfuel hclw
        (fun cs => by rw [List.cons_append, ntAux_comma_arr, ntAux_ws _ (hw.2.1 d)])
        (fun h => by simp at h) (fun _ => ⟨rfl, rfl⟩)
      simpa using this
termination_by restE _ _ _ _ _ _ _ _ _ _ _ => 2 * sizeOf restE + 1
decreasing_by
  all_goals try simp_wf
  all_goals try subst_vars
  all_goals try simp
  all_goals try omega
  all_goals try (rename_i x _; cases x <;> simp <;> omega)

end


theorem renderVal_len_pos (v : GoVal) (w : WsScheme) (d : Nat) (h : decodableV v = true) :
    1 ≤ (renderVal w d v).length := by
  cases v with
  | num lit =>
    obtain ⟨c, r, rfl, -⟩ := goodNumLit_nonempty lit (by simpa [decodableV] using h)
    simp [renderVal]
  | str s => simp [renderVal, marshalStringL]
  | bool b => cases b <;> simp [renderVal]
  | null => simp [renderVal]
  | comment text => simp [renderVal, marshalCommentL]
  | branch items => simp [renderVal]
  | arr elems => simp [renderVal]

mutual

theorem jcostV_le : ∀ (v : GoVal), decodableV v = true → ∀ (w : WsScheme) (d : Nat),
    jcostV v ≤ (renderVal w d v).length + 1
  | .str s, h, w, d => by simp [jcostV, renderVal, marshalStringL]
  | .num lit, h, w, d => by
    obtain ⟨c, r, rfl, -⟩ := goodNumLit_nonempty lit (by simpa [decodableV] using h)
    simp [jcostV, renderVal]
  | .bool true, h, w, d => by simp [jcostV, renderVal]
  | .bool false, h, w, d => by simp [jcostV, renderVal]
  | .null, h, w, d => by simp [jcostV, renderVal]
  | .comment text, h, w, d => by simp [decodableV] at h
  | .branch items, h, w, d => by
    have hitems : decodableItems items = true := by simpa [decodableV] using h
    have ih := jcostItems_le items hitems w (d + 1)
    by_cases hemp : items.isEmpty
    · have h0 : items = [] := by simpa [List.isEmpty_iff] using hemp
      subst h0
      simp [jcostV, jcostItems, renderVal]
    · simp only [jcostV, renderVal, hemp, Bool.false_eq_true, if_false]
      simp only [List.length_cons, List.length_append]
      omega
  | .arr elems, h, w, d => by
    have helems : decodableElems elems = true := by simpa [decodableV] using h
    have ih := jcostElems_le elems helems w (d + 1)
    by_cases hemp : elems.isEmpty
    · have h0 : elems = [] := by simpa [List.isEmpty_iff] using hemp
      subst h0
      simp [jcostV, jcostElems, renderVal]
    · simp only [jcostV, renderVal, hemp, Bool.false_eq_true, if_false]
      simp only [List.length_cons, List.length_append]
      omega
termination_by v _ _ _ => sizeOf v
decreasing_by all_goals (try simp_wf) <;> (try subst_vars) <;> (try simp) <;> (try omega)

theorem jcostInner_le : ∀ (e : GoVal), decodableV e = true → ∀ (w : WsScheme) (d : Nat),
    jcostInner e ≤ (renderVal w d e).length
  | .str s, h, w, d => by simp [jcostInner]
  | .num lit, h, w, d => by simp [jcostInner]
  | .bool b, h, w, d => by cases b <;> simp [jcostInner]
  | .null, h, w, d => by simp [jcostInner]
  | .comment text, h, w, d => by simp [decodableV] at h
  | .branch items, h, w, d => by
    have hitems : decodableItems items = true := by simpa [decodableV] using h
    have ih := jcostItems_le items hitems w (d + 1)
    by_cases hemp : items.isEmpty
    · have h0 : items = [] := by simpa [List.isEmpty_iff] using hemp
      subst h0
      simp [jcostInner, jcostItems, renderVal]
    · simp only [jcostInner, renderVal, hemp, Bool.false_eq_true, if_false]
      simp only [List.length_cons, List.length_append]
      omega
  | .arr elems, h, w, d => by
    have helems : decodableElems elems = true := by simpa [decodableV] using h
    have ih := jcostElems_le elems helems w (d + 1)
    by_cases hemp : elems.isEmpty
    · have h0 : elems = [] := by simpa [List.isEmpty_iff] using hemp
      subst h0
      simp [jcostInner, jcostElems, renderVal]
    · simp only [jcostInner, renderVal, hemp, Bool.false_eq_true, if_false]
      simp only [List.length_cons, List.length_append]
      omega
termination_by e _ _ _ => sizeOf e
decreasing_by all_goals (try simp_wf) <;> (try subst_vars) <;> (try simp) <;> (try omega)

theorem jcostItems_le : ∀ (items : List TreeItem), decodableItems items = true →
    ∀ (w : WsScheme) (d : Nat), jcostItems items ≤ (renderItems w d items).length + 1
  | [], h, w, d => by simp [jcostItems, renderItems]
  | (k, v) :: rest, h, w, d => by
    obtain ⟨ks, rfl⟩ : ∃ ks, k = GoVal.str ks := by
      cases k <;> simp [decodableItems] at h <;> exact ⟨_, rfl⟩
    have hdv : decodableV v = true ∧ decodableItems rest = true := by
      simpa [decodableItems, Bool.and_eq_true] using h
    have ih1 := jcostV_le v hdv.1 w d
    have ih2 := jcostItems_le rest hdv.2 w d
    simp only [jcostItems, renderItems, renderKey, marshalStringL, List.length_append,
      List.length_cons]
    omega
termination_by items _ _ _ => sizeOf items
decreasing_by all_goals (try simp_wf) <;> (try subst_vars) <;> (try simp) <;> (try omega)

theorem jcostElems_le : ∀ (elems : List GoVal), decodableElems elems = true →
    ∀ (w : WsScheme) (d : Nat), jcostElems elems ≤ (renderElems w d elems).length + 1
  | [], h, w, d => by simp [jcostElems, renderElems]
  | e :: rest, h, w, d => by
    have hde : decodableV e = true ∧ decodableElems rest = true := by
      simpa [decodableElems, Bool.and_eq_true] using h
    have ih0 := jcostInner_le e hde.1 w d
    have ih2 := jcostElems_le rest hde.2 w d
    have hpos := renderVal_len_pos e w d hde.1
    simp only [jcostElems, renderElems, List.length_append]
    omega
termination_by elems _ _ _ => sizeOf elems
decreasing_by all_goals (try simp_wf) <;> (try subst_vars) <;> (try simp) <;> (try omega)

end


theorem wsOK_wCompact : wsOK wCompact :=
  ⟨fun _ => rfl, fun _ => rfl, fun _ => rfl, rfl⟩

theorem repList_ws (u : List Char) (hu : wsOnlyL u = true) : ∀ n, wsOnlyL (repList u n) = true
  | 0 => rfl
  | n + 1 => by
    simp only [repList]
    exact wsOnlyL_append hu (repList_ws u hu n)

theorem wsOK_wIndent (u : List Char) (hu : wsOnlyL u = true) : wsOK (wIndent u) := by
  refine ⟨fun d => ?_, fun d => ?_, fun d => ?_, rfl⟩ <;>
    · show wsOnlyL ('\n' :: repList u d) = true
      simp only [wsOnlyL, List.all_cons, Bool.and_eq_true]
      exact ⟨by decide, repList_ws u hu d⟩

theorem wsOnlyL_replicate (n : Nat) : wsOnlyL (List.replicate n ' ') = true := by
  induction n with
  | zero => rfl
  | succ n ih =>
    simp only [List.replicate, wsOnlyL, List.all_cons, Bool.and_eq_true]
    exact ⟨by decide, ih⟩

/-- The generic parse of rendered text (plus trailing whitespace) gives
back exactly the rendered value. -/
theorem jparse_render (v : GoVal) (w : WsScheme) (tail : List Char)
    (hv : decodableV v = true) (hw : wsOK w) (ht : wsOnlyL tail = true) :
    jparse (renderVal w 0 v ++ tail) = .ok v := by
  have hfuel : jcostV v ≤ (renderVal w 0 v ++ tail).length + 2 := by
    have := jcostV_le v hv w 0
    simp only [List.length_append]
    omega
  have hdel : numDelim tail = true := by
    simpa using numDelim_ws tail [] ht rfl
  have hval := jval_render v hv w hw ((renderVal w 0 v ++ tail).length + 2) 0 [] .top .top
    [] tail hfuel hdel (fun cs => rfl) rfl
  rw [show valueEndS TkState.top = TkState.top from rfl] at hval
  simp only [List.nil_append] at hval
  unfold jparse
  simp only [hval]
  have hnt2 : nextToken ⟨tail, [], .top⟩ = .err .eof ⟨[], [], .top⟩ :=
    ntAux_wsEof tail ht [] .top
  simp only [hnt2]

mutual

/-- The encoder produces exactly the compact rendering on
decoder-image values. -/
theorem encodeValue_render : ∀ (v : GoVal), decodableV v = true → ∀ (d : Nat),
    encodeValue v = .ok (renderVal wCompact d v)
  | .str s, h, d => by simp [encodeValue, renderVal]
  | .num lit, h, d => by simp [encodeValue, renderVal]
  | .bool true, h, d => by simp [encodeValue, renderVal]
  | .bool false, h, d => by simp [encodeValue, renderVal]
  | .null, h, d => by simp [encodeValue, renderVal]
  | .comment text, h, d => by simp [decodableV] at h
  | .branch items, h, d => by
    have hitems : decodableItems items = true := by simpa [decodableV] using h
    have ih := encodeItemsGo_render items true hitems (d + 1)
    simp only [encodeValue, ih, Bool.true_or, if_true, List.nil_append]
    by_cases hemp : items.isEmpty
    · have h0 : items = [] := by simpa [List.isEmpty_iff] using hemp
      subst h0
      simp [renderVal, renderItems]
    · simp only [renderVal, hemp, Bool.false_eq_true, if_false]
      simp [wCompact]
  | .arr elems, h, d => by
    have helems : decodableElems elems = true := by simpa [decodableV] using h
    have ih := encodeElemsGo_render elems true helems (d + 1)
    simp only [encodeValue, ih, Bool.true_or, if_true, List.nil_append]
    by_cases hemp : elems.isEmpty
    · have h0 : elems = [] := by simpa [List.isEmpty_iff] using hemp
      subst h0
      simp [renderVal, renderElems]
    · simp only [renderVal, hemp, Bool.false_eq_true, if_false]
      simp [wCompact]
termination_by v _ _ => sizeOf v
decreasing_by all_goals (try simp_wf) <;> (try subst_vars) <;> (try simp) <;> (try omega)

theorem encodeItemsGo_render : ∀ (items : List TreeItem) (first : Bool),
    decodableItems items = true → ∀ (d : Nat),
    encodeItemsGo first items =
      .ok ((if first || items.isEmpty then [] else [',']) ++ renderItems wCompact d items)
  | [], first, h, d => by simp [encodeItemsGo, renderItems]
  | (k, v) :: rest, first, h, d => by
    obtain ⟨ks, rfl⟩ : ∃ ks, k = GoVal.str ks := by
      cases k <;> simp [decodableItems] at h <;> exact ⟨_, rfl⟩
    have hdv : decodableV v = true ∧ decodableItems rest = true := by
      simpa [decodableItems, Bool.and_eq_true] using h
    have ihv := encodeValue_render v hdv.1 d
    have ihr := encodeItemsGo_render rest false hdv.2 d
    simp only [encodeItemsGo, isCommentV, Bool.false_eq_true, if_false, ihv, ihr]
    simp only [renderItems, renderKey, wCompact, Bool.false_or]
    cases first <;> cases rest <;> simp [renderItems]
termination_by items _ _ _ => sizeOf items
decreasing_by all_goals (try simp_wf) <;> (try subst_vars) <;> (try simp) <;> (try omega)

theorem encodeElemsGo_render : ∀ (elems : List GoVal) (first : Bool),
    decodableElems elems = true → ∀ (d : Nat),
    encodeElemsGo first elems =
      .ok ((if first || elems.isEmpty then [] else [',']) ++ renderElems wCompact d elems)
  | [], first, h, d => by simp [encodeElemsGo, renderElems]
  | e :: rest, first, h, d => by
    have hde : decodableV e = true ∧ decodableElems rest = true := by
      simpa [decodableElems, Bool.and_eq_true] using h
    have hnc : isCommentV e = false := by
      cases e <;> simp [isCommentV] <;> simp [decodableV] at hde
    have ihv := encodeValue_render e hde.1 d
    have ihr := encodeElemsGo_render rest false hde.2 d
    simp only [encodeElemsGo, hnc, Bool.false_eq_true, if_false, ihv, ihr]
    simp only [renderElems, wCompact, Bool.false_or]
    cases first <;> cases rest <;> simp [renderElems]
termination_by elems _ _ _ => sizeOf elems
decreasing_by all_goals (try simp_wf) <;> (try subst_vars) <;> (try simp) <;> (try omega)

end

/-- `encodeTree` produces the compact rendering of the whole object. -/
theorem encodeTree_render (B : TreeBranch) (h : decodableItems B = true) :
    encodeTree B = .ok (renderVal wCompact 0 (.branch B)) := by
  rw [← encodeValue_branch]
  exact encodeValue_render (.branch B) (by simpa [decodableV] using h) 0

/-! ## Single-occurrence behavior of the removal loop (for C6) -/

/-- No Item of the branch carries the reserved metadata key. -/
def noSopsKey : TreeBranch → Bool
  | [] => true
  | (k, _) :: rest => !keyEqualsStr k SopsMetadataKey && noSopsKey rest

theorem noSopsKey_getD {xs : TreeBranch} (h : noSopsKey xs = true) :
    ∀ j, j < xs.length →
      keyEqualsStr (xs.getD j (GoVal.null, GoVal.null)).1 SopsMetadataKey = false := by
  induction xs with
  | nil => intro j hj; simp at hj
  | cons it rest ih =>
    obtain ⟨k, v⟩ := it
    simp only [noSopsKey, Bool.and_eq_true, Bool.not_eq_true'] at h
    intro j hj
    cases j with
    | zero => simpa using h.1
    | succ j =>
      simp only [List.getD_cons_succ]
      exact ih h.2 j (by simpa using hj)

/-- If none of the `steps` indices the loop still visits carries the
reserved key, the loop finishes without touching the slice. -/
theorem discardGo_noMatch : ∀ (steps : Nat) (A : List TreeItem) (len i : Nat),
    (∀ j, i ≤ j → j < i + steps →
      keyEqualsStr (A.getD j (GoVal.null, GoVal.null)).1 SopsMetadataKey = false) →
    discardGo steps A len i = .ok (A.take len) := by
  intro steps
  induction steps with
  | zero => intro A len i h; rfl
  | succ st ih =>
    intro A len i h
    have h0 := h i (le_refl i) (by omega)
    simp only [discardGo, h0, Bool.false_eq_true, if_false]
    exact ih A len (i + 1) fun j hj1 hj2 => h j (by omega) (by omega)

/-- Skipping a match-free prefix of the visited indices. -/
theorem discardGo_skip : ∀ (k steps : Nat) (A : List TreeItem) (len i : Nat),
    k ≤ steps →
    (∀ j, i ≤ j → j < i + k →
      keyEqualsStr (A.getD j (GoVal.null, GoVal.null)).1 SopsMetadataKey = false) →
    discardGo steps A len i = discardGo (steps - k) A len (i + k) := by
  intro k
  induction k with
  | zero => intro steps A len i hk h; simp
  | succ k ih =>
    intro steps A len i hk h
    match steps, hk with
    | st + 1, hk =>
      have h0 := h i (le_refl i) (by omega)
      simp only [discardGo, h0, Bool.false_eq_true, if_false]
      have heq := ih st A len (i + 1) (by omega) fun j hj1 hj2 => h j (by omega) (by omega)
      have e1 : st - k = st + 1 - (k + 1) := by omega
      have e2 : i + 1 + k = i + (k + 1) := by omega
      rw [heq, e1, e2]

/-- The in-place removal of the single reserved-key item at position
`pre.length`: the live part becomes `pre ++ post`, and the final (dead)
slot keeps the old last element. -/
theorem spliceAt_decomp (pre post : TreeBranch) (x : TreeItem) :
    spliceAt (pre ++ x :: post) (pre ++ x :: post).length pre.length
      = pre ++ post ++
          [(pre ++ x :: post).getD (pre.length + post.length) (GoVal.null, GoVal.null)] := by
  have hlen : (pre ++ x :: post).length = pre.length + post.length + 1 := by
    simp; omega
  apply List.ext_getElem
  · simp [spliceAt_length]
  · intro j h1 h2
    have hj : j < pre.length + post.length + 1 := by
      rw [spliceAt_length, hlen] at h1; exact h1
    rw [show (spliceAt (pre ++ x :: post) (pre ++ x :: post).length pre.length)[j]
        = if j < pre.length then (pre ++ x :: post).getD j (GoVal.null, GoVal.null)
          else if j + 1 < (pre ++ x :: post).length then
            (pre ++ x :: post).getD (j + 1) (GoVal.null, GoVal.null)
          else (pre ++ x :: post).getD j (GoVal.null, GoVal.null) from by
      simp [spliceAt]]
    by_cases hc1 : j < pre.length
    · rw [if_pos hc1, List.getD_append _ _ _ _ hc1, List.getD_eq_getElem pre _ hc1,
        List.getElem_append_left (by simp; omega), List.getElem_append_left hc1]
    · rw [if_neg hc1]
      push_neg at hc1
      by_cases hc2 : j < pre.length + post.length
      · rw [if_pos (by omega), List.getD_append_right _ _ _ _ (by omega)]
        have hx : (x :: post).getD (j + 1 - pre.length) (GoVal.null, GoVal.null)
            = post.getD (j - pre.length) (GoVal.null, GoVal.null) := by
          have e : j + 1 - pre.length = (j - pre.length) + 1 := by omega
          rw [e, List.getD_cons_succ]
        rw [hx, List.getD_eq_getElem post _ (by omega)]
        rw [List.getElem_append_left (show j < (pre ++ post).length from by simp; omega),
          List.getElem_append_right (by simpa using hc1)]
      · rw [if_neg (by omega)]
        have hj2 : j = pre.length + post.length := by omega
        subst hj2
        rw [List.getElem_append_right (by simp)]
        simp

/-- The removal loop on a branch with exactly one reserved-key item:
it removes exactly that item. -/
theorem discardSopsMetadata_single (pre post : TreeBranch) (v : GoVal)
    (hpre : noSopsKey pre = true) (hpost : noSopsKey post = true) :
    discardSopsMetadata (pre ++ (GoVal.str SopsMetadataKey, v) :: post) = .ok (pre ++ post) := by
  have hlen : (pre ++ (GoVal.str SopsMetadataKey, v) :: post).length
      = pre.length + post.length + 1 := by simp; omega
  unfold discardSopsMetadata
  rw [discardGo_skip pre.length _ _ _ 0 (by omega)
    (fun j hj1 hj2 => by
      rw [List.getD_append _ _ _ _ (by omega)]
      exact noSopsKey_getD hpre j (by omega))]
  rw [show (pre ++ (GoVal.str SopsMetadataKey, v) :: post).length - pre.length
      = post.length + 1 from by omega,
    Nat.zero_add]
  have hkey : keyEqualsStr
      (((pre ++ (GoVal.str SopsMetadataKey, v) :: post)).getD pre.length
        (GoVal.null, GoVal.null)).1 SopsMetadataKey = true := by
    rw [List.getD_append_right _ _ _ _ (le_refl _), Nat.sub_self, List.getD_cons_zero]
    simp [keyEqualsStr]
  simp only [discardGo, hkey, if_true]
  rw [if_pos (by omega), spliceAt_decomp pre post _]
  rw [discardGo_noMatch post.length _ _ _ (fun j hj1 hj2 => by
    by_cases hc : j < pre.length + post.length
    · rw [List.getD_append _ _ _ _ (by simp; omega),
        List.getD_append_right _ _ _ _ (by omega)]
      exact noSopsKey_getD hpost _ (by omega)
    · have hj3 : j = pre.length + post.length := by omega
      have hq : 1 ≤ post.length := by omega
      rw [hj3, List.getD_append_right _ _ _ _ (by simp),
        show ((pre ++ post).length) = pre.length + post.length from by simp]
      rw [Nat.sub_self, List.getD_cons_zero,
        List.getD_append_right _ _ _ _ (by omega),
        show pre.length + post.length - pre.length = (post.length - 1) + 1 from by omega,
        List.getD_cons_succ]
      exact noSopsKey_getD hpost _ (by omega))]
  rw [show (pre ++ (GoVal.str SopsMetadataKey, v) :: post).length - 1
      = (pre ++ post).length from by simp,
    List.take_left]

/-- Claim C6 (amended): when exactly one Item of the decoded Branch
carries the reserved metadata key, the removal loop of
`LoadEncryptedFile` removes exactly that Item and returns the remaining
Items in order.  (With more than one occurrence the loop does not, in
general, leave all later occurrences in place: see the counterexample,
where both of two occurrences are removed.) -/
theorem discard_single_occurrence (pre post : TreeBranch) (v : GoVal)
    (hpre : noSopsKey pre = true) (hpost : noSopsKey post = true) :
    discardSopsMetadata (pre ++ (GoVal.str SopsMetadataKey, v) :: post) = .ok (pre ++ post) :=
  discardSopsMetadata_single pre post v hpre hpost

/-! ## Agreement of the strict parser and the tree decoder

Both run the same token machine; on any input the strict parser
accepts, the tree decoder produces the same members with the same final
decoder state.  The fuel offsets follow the call structure of the two
families. -/

theorem jparse_tree_agreement : ∀ fuel : Nat,
    (∀ st ms st', jmembersFromDec fuel st = .ok ms st' →
      treeBranchFromDec (fuel + 1) st = .ok ms st') ∧
    (∀ st es st', jelemsFromDec fuel st = .ok es st' →
      sliceFromDec (fuel + 1) st = .ok es st') ∧
    (∀ t st v st', jvalueAfterTok fuel t st = .ok v st' →
      treeValueAfterTok (fuel + 1) t st = .ok v st') := by
  intro fuel
  induction fuel using Nat.strong_induction_on with
  | _ fuel IH =>
    obtain _ | f := fuel
    · refine ⟨fun st ms st' h => ?_, fun st es st' h => ?_, fun t st v st' h => ?_⟩ <;>
        simp [jmembersFromDec, jelemsFromDec, jvalueAfterTok] at h
    · refine ⟨fun st ms st' h => ?_, fun st es st' h => ?_, fun t st v st' h => ?_⟩
      -- members vs branch collector
      · rw [jmembersFromDec_step] at h
        cases hnt : nextToken st with
        | err e st1 => simp only [hnt] at h; exact DRes.noConfusion h
        | ok t st1 =>
          simp only [hnt] at h
          cases t with
          | rbrace =>
            injection h with h1 h2
            subst h1; subst h2
            rw [treeBranchFromDec_step, treeItemFromDec_step]
            simp only [hnt]
          | str k =>
            obtain _ | g := f
            · simp only [jvalueFromDec] at h; exact DRes.noConfusion h
            · rw [jvalueFromDec_step] at h
              cases hnt2 : nextToken st1 with
              | err e st1' => simp only [hnt2] at h; exact DRes.noConfusion h
              | ok vt st1' =>
                simp only [hnt2] at h
                cases hval : jvalueAfterTok g vt st1' with
                | err e st2 => simp only [hval] at h; exact DRes.noConfusion h
                | ok v st2 =>
                  simp only [hval] at h
                  cases hmem : jmembersFromDec (g + 1) st2 with
                  | err e st3 => simp only [hmem] at h; exact DRes.noConfusion h
                  | ok ms2 st3 =>
                    simp only [hmem] at h
                    injection h with h1 h2
                    subst h1; subst h2
                    have hv := ((IH g (by omega)).2.2) vt st1' v st2 hval
                    have hm := ((IH (g + 1) (by omega)).1) st2 ms2 st3 hmem
                    rw [treeBranchFromDec_step, treeItemFromDec_step]
                    simp only [hnt, hnt2, hv, hm]
          | lbrace => exact DRes.noConfusion h
          | lbrack => exact DRes.noConfusion h
          | rbrack => exact DRes.noConfusion h
          | num lit => exact DRes.noConfusion h
          | bool b => exact DRes.noConfusion h
          | null => exact DRes.noConfusion h
      -- elements vs slice collector
      · simp only [jelemsFromDec] at h
        cases hnt : nextToken st with
        | err e st1 => simp only [hnt] at h; exact DRes.noConfusion h
        | ok t st1 =>
          simp only [hnt] at h
          cases t with
          | rbrack =>
            injection h with h1 h2
            subst h1; subst h2
            rw [sliceFromDec_step]
            simp only [hnt]
          | lbrace =>
            cases hmem : jmembersFromDec f st1 with
            | err e st2 => simp only [hmem] at h; exact DRes.noConfusion h
            | ok b st2 =>
              simp only [hmem] at h
              cases hrest : jelemsFromDec f st2 with
              | err e st3 => simp only [hrest] at h; exact DRes.noConfusion h
              | ok rest st3 =>
                simp only [hrest] at h
                injection h with h1 h2
                subst h1; subst h2
                have hm := ((IH f (by omega)).1) st1 b st2 hmem
                have hr := ((IH f (by omega)).2.1) st2 rest st3 hrest
                rw [sliceFromDec_step]
                simp only [hnt, hm, hr]
          | lbrack =>
            cases hinner : jelemsFromDec f st1 with
            | err e st2 => simp only [hinner] at h; exact DRes.noConfusion h
            | ok inner st2 =>
              simp only [hinner] at h
              cases hrest : jelemsFromDec f st2 with
              | err e st3 => simp only [hrest] at h; exact DRes.noConfusion h
              | ok rest st3 =>
                simp only [hrest] at h
                injection h with h1 h2
                subst h1; subst h2
                have hi := ((IH f (by omega)).2.1) st1 inner st2 hinner
                have hr := ((IH f (by omega)).2.1) st2 rest st3 hrest
                rw [sliceFromDec_step]
                simp only [hnt, hi, hr]
          | str s =>
            cases hrest : jelemsFromDec f st1 with
            | err e st2 => simp only [hrest] at h; exact DRes.noConfusion h
            | ok rest st2 =>
              simp only [hrest] at h
              injection h with h1 h2
              subst h1; subst h2
              have hr := ((IH f (by omega)).2.1) st1 rest st2 hrest
              rw [sliceFromDec_step]
              simp only [hnt, hr]
          | num lit =>
            cases hrest : jelemsFromDec f st1 with
            | err e st2 => simp only [hrest] at h; exact DRes.noConfusion h
            | ok rest st2 =>
              simp only [hrest] at h
              injection h with h1 h2
              subst h1; subst h2
              have hr := ((IH f (by omega)).2.1) st1 rest st2 hrest
              rw [sliceFromDec_step]
              simp only [hnt, hr]
          | bool b =>
            cases hrest : jelemsFromDec f st1 with
            | err e st2 => simp only [hrest] at h; exact DRes.noConfusion h
            | ok rest st2 =>
              simp only [hrest] at h
              injection h with h1 h2
              subst h1; subst h2
              have hr := ((IH f (by omega)).2.1) st1 rest st2 hrest
              rw [sliceFromDec_step]
              simp only [hnt, hr]
          | null =>
            cases hrest : jelemsFromDec f st1 with
            | err e st2 => simp only [hrest] at h; exact DRes.noConfusion h
            | ok rest st2 =>
              simp only [hrest] at h
              injection h with h1 h2
              subst h1; subst h2
              have hr := ((IH f (by omega)).2.1) st1 rest st2 hrest
              rw [sliceFromDec_step]
              simp only [hnt, hr]
          | rbrace =>
            cases hrest : jelemsFromDec f st1 with
            | err e st2 => simp only [hrest] at h; exact DRes.noConfusion h
            | ok rest st2 =>
              simp only [hrest] at h
              injection h with h1 h2
              subst h1; subst h2
              have hr := ((IH f (by omega)).2.1) st1 rest st2 hrest
              rw [sliceFromDec_step]
              simp only [hnt, hr]
      -- values after a token
      · cases t with
        | lbrace =>
          simp only [jvalueAfterTok] at h
          cases hmem : jmembersFromDec f st with
          | err e st2 => simp only [hmem] at h; exact DRes.noConfusion h
          | ok ms st2 =>
            simp only [hmem] at h
            injection h with h1 h2
            subst h1; subst h2
            have hm := ((IH f (by omega)).1) st ms st2 hmem
            rw [treeValueAfterTok_step]
            simp only [hm]
        | lbrack =>
          simp only [jvalueAfterTok] at h
          cases hels : jelemsFromDec f st with
          | err e st2 => simp only [hels] at h; exact DRes.noConfusion h
          | ok es st2 =>
            simp only [hels] at h
            injection h with h1 h2
            subst h1; subst h2
            have he := ((IH f (by omega)).2.1) st es st2 hels
            rw [treeValueAfterTok_step]
            simp only [he]
        | rbrack => simp only [jvalueAfterTok] at h; exact DRes.noConfusion h
        | rbrace => simp only [jvalueAfterTok] at h; exact DRes.noConfusion h
        | str s =>
          simp only [jvalueAfterTok] at h
          injection h with h1 h2
          subst h1; subst h2
          rw [treeValueAfterTok_step]
        | num lit =>
          simp only [jvalueAfterTok] at h
          injection h with h1 h2
          subst h1; subst h2
          rw [treeValueAfterTok_step]
        | bool b =>
          simp only [jvalueAfterTok] at h
          injection h with h1 h2
          subst h1; subst h2
          rw [treeValueAfterTok_step]
        | null =>
          simp only [jvalueAfterTok] at h
          injection h with h1 h2
          subst h1; subst h2
          rw [treeValueAfterTok_step]

/-- Top-level agreement: whatever object document the strict parser of
the metadata path accepts, `treeBranchFromJSON` decodes to exactly the
same items. -/
theorem treeBranchFromJSON_of_jparse {input : List Char} {ms : List TreeItem}
    (h : jparse input = .ok (.branch ms)) :
    treeBranchFromJSON input = .ok ms := by
  unfold jparse at h
  cases hval : jvalueFromDec (input.length + 2) ⟨input, [], .top⟩ with
  | err e st1 => simp only [hval] at h; exact Except.noConfusion h
  | ok v st1 =>
    simp only [hval] at h
    have hv : v = .branch ms := by
      cases hnt : nextToken st1 with
      | ok t st2 => simp only [hnt] at h; exact Except.noConfusion h
      | err e st2 =>
        simp only [hnt] at h
        cases e <;> simp at h
        exact h
    subst hv
    rw [show input.length + 2 = (input.length + 1) + 1 from rfl, jvalueFromDec_step] at hval
    cases hnt0 : nextToken ⟨input, [], .top⟩ with
    | err e0 st0 => simp only [hnt0] at hval; exact DRes.noConfusion hval
    | ok t0 st0 =>
      simp only [hnt0] at hval
      cases t0 with
      | lbrace =>
        simp only [jvalueAfterTok] at hval
        cases hmem : jmembersFromDec input.length st0 with
        | err e2 st2 => simp only [hmem] at hval; exact DRes.noConfusion hval
        | ok ms2 st2 =>
          simp only [hmem] at hval
          injection hval with h1 h2
          injection h1 with h1
          unfold treeBranchFromJSON
          simp only [hnt0, (jparse_tree_agreement input.length).1 st0 ms2 st2 hmem, h1]
      | lbrack =>
        simp only [jvalueAfterTok] at hval
        cases hels : jelemsFromDec input.length st0 with
        | err e2 st2 => simp only [hels] at hval; exact DRes.noConfusion hval
        | ok es st2 =>
          simp only [hels] at hval
          injection hval with h1 h2
          exact GoVal.noConfusion h1
      | rbrack => simp only [jvalueAfterTok] at hval; exact DRes.noConfusion hval
      | rbrace => simp only [jvalueAfterTok] at hval; exact DRes.noConfusion hval
      | str s =>
        simp only [jvalueAfterTok] at hval
        injection hval with h1 h2
        exact GoVal.noConfusion h1
      | num lit =>
        simp only [jvalueAfterTok] at hval
        injection hval with h1 h2
        exact GoVal.noConfusion h1
      | bool b =>
        simp only [jvalueAfterTok] at hval
        injection hval with h1 h2
        exact GoVal.noConfusion h1
      | null =>
        simp only [jvalueAfterTok] at hval
        injection hval with h1 h2
        exact GoVal.noConfusion h1

/-! # Claim theorems -/

/-- Claim C9: for every payload byte sequence `p`,
`BinaryStore.LoadPlainFile p` succeeds with a Document of exactly one
Branch holding the single Item `data: string(p)`;
`BinaryStore.EmitPlainFile` on that Document returns exactly `p` with
no surrounding structure; and `BinaryStore.EmitValue` fails with the
unstructured-value error on every input. -/
theorem binaryStore_payload_contract :
    (∀ p : List Char,
      binaryLoadPlainFile p = .ok [[(GoVal.str "data", GoVal.str (String.mk p))]]) ∧
    (∀ p : List Char,
      binaryEmitPlainFile [[(GoVal.str "data", GoVal.str (String.mk p))]] = .ok p) ∧
    (∀ v : GoVal,
      binaryEmitValue v = .error (.errorMsg
        "Binary files are not structured and extracting a single value is not possible")) :=
  ⟨fun _ => rfl, fun _ => rfl, fun _ => rfl⟩

/-- Claim C8: reindentation is total in the configured width: every
width strictly below the `-1` sentinel fails with the invalid-indent
error; width `-1` indents each level with a single tab; width `0`
produces no leading whitespace but retains the newlines between
Items. -/
theorem reindent_width_contract :
    (∀ cfg : Int, cfg < -1 → ∀ input : List Char,
      reindentJSON cfg input =
        .error (.errorMsg "JSON Indentation parameter smaller than -1 is not accepted")) ∧
    reindentJSON (-1) "\x7b\"a\": [1,2], \"b\": \x7b\x7d\x7d".toList =
      .ok "\x7b\n\t\"a\": [\n\t\t1,\n\t\t2\n\t],\n\t\"b\": \x7b\x7d\n\x7d".toList ∧
    reindentJSON 0 "\x7b\"a\": [1,2]\x7d".toList =
      .ok "\x7b\n\"a\": [\n1,\n2\n]\n\x7d".toList := by
  refine ⟨fun cfg hc input => ?_, rfl, rfl⟩
  unfold reindentJSON
  rw [if_neg (by omega), if_pos (by omega)]

/-- Witness for C8: the sentinel-adjacent invalid width `-2` is
rejected on a concrete input. -/
theorem reindent_width_contract_witness :
    reindentJSON (-2) [] =
      .error (.errorMsg "JSON Indentation parameter smaller than -1 is not accepted") :=
  reindent_width_contract.1 (-2) (by norm_num) []

/-- C5 counterexample: a non-string, non-Comment key does not produce
an `InvalidKeyType` error value — the unchecked type assertion
`item.Key.(string)` makes the encoder panic instead. -/
theorem encode_nonstring_key_counterexample :
    encodeTree [(GoVal.bool true, GoVal.null)] =
      .panicked "interface conversion: interface \x7b\x7d is not string" := rfl

/-- Claim C5 (amended): a Comment-keyed Item is skipped by the encoder;
string keys are rendered as quoted strings; but any other non-string
key causes a runtime panic (failed interface conversion), not an
`InvalidKeyType` error value returned to the caller. -/
theorem encode_key_handling :
    (∀ (k : GoVal) (rest : TreeBranch),
      (match k with
       | .str _ => False
       | .comment _ => False
       | _ => True) →
      encodeTree ((k, GoVal.null) :: rest) =
        .panicked "interface conversion: interface \x7b\x7d is not string") ∧
    (∀ (c : String) (v : GoVal) (rest : TreeBranch),
      encodeTree ((GoVal.comment c, v) :: rest) = encodeTree rest) ∧
    (∀ k s : String,
      encodeTree [(GoVal.str k, GoVal.str s)] =
        .ok (lbraceC :: (marshalStringL k ++ ':' :: ' ' :: (marshalStringL s ++ [rbraceC])))) := by
  refine ⟨fun k rest h => ?_, fun c v rest => ?_, fun k s => ?_⟩
  · cases k <;> simp_all [encodeTree, encodeItemsGo, isCommentV, encodeValue]
  · simp [encodeTree, encodeItemsGo, isCommentV]
  · simp [encodeTree, encodeItemsGo, isCommentV, encodeValue]

/-- Witness for C5 (amended): the panic at a concrete numeric key. -/
theorem encode_key_handling_witness :
    encodeTree [(GoVal.num ['1'], GoVal.null)] =
      .panicked "interface conversion: interface \x7b\x7d is not string" :=
  encode_key_handling.1 (GoVal.num ['1']) [] trivial

/-- C4 counterexample: premature end of input at a value position is
swallowed, not surfaced — decoding the truncated document
`\x7b"a":1,"b":` succeeds and silently returns the partial Branch. -/
theorem decoder_swallows_truncation_counterexample :
    treeBranchFromJSON "\x7b\"a\":1,\"b\":".toList = .ok [(GoVal.str "a", GoVal.num ['1'])] := rfl

/-- Claim C4 (amended): a non-string object key fails with a surfaced
syntax error carrying the offending character, and premature end of
input at an object-key position fails with the Expected-JSON-object-key
error carrying the offending (nil) token; but premature end of input at
a value position is swallowed (see the counterexample). -/
theorem decoder_malformed_errors :
    treeBranchFromJSON "\x7b1: 2\x7d".toList = .error (.synErr "invalid character 1") ∧
    treeBranchFromJSON "\x7b".toList = .error (.expectedObjectKey none) := ⟨rfl, rfl⟩

/-- Witness for C6 (amended): the unique reserved-key item between two
ordinary items is removed, and only it. -/
theorem discard_single_occurrence_witness :
    discardSopsMetadata
        [(GoVal.str "x", GoVal.null), (GoVal.str SopsMetadataKey, GoVal.null),
         (GoVal.str "y", GoVal.null)] =
      .ok [(GoVal.str "x", GoVal.null), (GoVal.str "y", GoVal.null)] :=
  discard_single_occurrence [(GoVal.str "x", GoVal.null)] [(GoVal.str "y", GoVal.null)]
    GoVal.null rfl rfl

/-- Claim C2: for every input whose metadata version field is a
numeric literal (the sops member parses as an object whose version
member is a number), `LoadEncryptedFile` fails with the
legacy-format-detected error carrying the remediation message — never
with a generic parse error. -/
theorem legacy_numeric_version_detected (input : List Char) (ms sms : List TreeItem)
    (lit : List Char)
    (hparse : jparse input = .ok (.branch ms))
    (hsops : lookupKeyJ SopsMetadataKey ms = some (.branch sms))
    (hver : lookupKeyJ "version" sms = some (.num lit)) :
    loadEncryptedFile input = .error (.errorMsg legacyMsg) := by
  unfold loadEncryptedFile unmarshalSopsFile
  simp only [hparse, hsops, hver]
  rfl

/-- Witness for C2: the spec's own example document. -/
theorem legacy_numeric_version_detected_witness :
    loadEncryptedFile "\x7b\"sops\": \x7b\"version\": 2\x7d\x7d".toList =
      .error (.errorMsg legacyMsg) :=
  legacy_numeric_version_detected _
    [(GoVal.str "sops", GoVal.branch [(GoVal.str "version", GoVal.num ['2'])])]
    [(GoVal.str "version", GoVal.num ['2'])] ['2'] rfl rfl rfl

/-- Claim C3: every well-formed JSON document (a top-level object, per
this format) without the reserved metadata key fails
`LoadEncryptedFile` with the distinguished `MetadataNotFound` error,
while `LoadPlainFile` on the same bytes succeeds and returns the
single-Branch Document holding exactly the document's Items. -/
theorem missing_metadata_contract (input : List Char) (ms : List TreeItem)
    (hparse : jparse input = .ok (.branch ms))
    (hnosops : lookupKeyJ SopsMetadataKey ms = none) :
    loadEncryptedFile input = .error .metadataNotFound ∧
    loadPlainFile input = .ok [ms] := by
  constructor
  · unfold loadEncryptedFile unmarshalSopsFile
    simp only [hparse, hnosops]
  · unfold loadPlainFile
    rw [treeBranchFromJSON_of_jparse hparse]

/-- Witness for C3: the spec's example `\x7b"foo": "bar"\x7d`. -/
theorem missing_metadata_contract_witness :
    loadEncryptedFile "\x7b\"foo\": \"bar\"\x7d".toList = .error .metadataNotFound ∧
    loadPlainFile "\x7b\"foo\": \"bar\"\x7d".toList =
      .ok [[(GoVal.str "foo", GoVal.str "bar")]] :=
  missing_metadata_contract _ [(GoVal.str "foo", GoVal.str "bar")] rfl rfl

/-- Claim C10: `EmitPlainFile` and `EmitEncryptedFile` read the first
Branch of the Document with no guard.  On the empty Document both panic
with the out-of-range runtime error instead of returning an error
value; with at least one Branch (well-keyed, so the unrelated key
assertion of C5 cannot fire) the access is safe and neither ever
panics. -/
theorem emit_first_branch_unguarded :
    (∀ cfg : Int,
      emitPlainFile cfg [] = .panicked "runtime error: index out of range [0] with length 0") ∧
    (∀ (cfg : Int) (md : Metadata),
      emitEncryptedFile cfg ⟨[], md⟩ =
        .panicked "runtime error: index out of range [0] with length 0") ∧
    (∀ (cfg : Int) (b : TreeBranch) (rest : TreeBranches), wellKeyedItems b = true →
      ∀ m, emitPlainFile cfg (b :: rest) ≠ .panicked m) ∧
    (∀ (cfg : Int) (b : TreeBranch) (rest : TreeBranches) (md : Metadata),
      wellKeyedItems b = true →
      ∀ m, emitEncryptedFile cfg ⟨b :: rest, md⟩ ≠ .panicked m) := by
  refine ⟨fun cfg => rfl, fun cfg md => rfl,
    fun cfg b rest hwk m => ?_, fun cfg b rest md hwk m => ?_⟩
  · obtain ⟨s, hs⟩ := encodeItemsGo_wellKeyed true b hwk
    simp only [emitPlainFile, jsonFromTreeBranch, encodeTree, hs]
    cases hre : reindentJSON cfg (lbraceC :: (s ++ [rbraceC])) with
    | ok r => simp [hre]
    | error e => simp [hre]
  · have hwk2 : wellKeyedItems (b ++ [(GoVal.str SopsMetadataKey, metadataFromInternal md)])
        = true :=
      wellKeyedItems_append hwk
        (by simp [wellKeyedItems, metadataFromInternal_wellKeyed])
    obtain ⟨s, hs⟩ :=
      encodeItemsGo_wellKeyed true (b ++ [(GoVal.str SopsMetadataKey,
        metadataFromInternal md)]) hwk2
    simp only [emitEncryptedFile, jsonFromTreeBranch, encodeTree, hs]
    cases hre : reindentJSON cfg (lbraceC :: (s ++ [rbraceC])) with
    | ok r => simp [hre]
    | error e => simp [hre]

/-- Witness for C10: a concrete one-branch document is emitted without
a panic by both operations. -/
theorem emit_first_branch_unguarded_witness :
    (∀ m, emitPlainFile (-1) [[(GoVal.str "a", GoVal.null)]] ≠ .panicked m) ∧
    (∀ m, emitEncryptedFile (-1)
        ⟨[[(GoVal.str "a", GoVal.null)]], ⟨"3.0.0", "M"⟩⟩ ≠ .panicked m) :=
  ⟨fun m => emit_first_branch_unguarded.2.2.1 (-1) [(GoVal.str "a", GoVal.null)] []
      (by simp [wellKeyedItems, wellKeyedV]) m,
   fun m => emit_first_branch_unguarded.2.2.2 (-1) [(GoVal.str "a", GoVal.null)] []
      ⟨"3.0.0", "M"⟩ (by simp [wellKeyedItems, wellKeyedV]) m⟩

/-- C6 counterexample: with reserved-key occurrences at positions 0 and
2 of four items, `LoadEncryptedFile` succeeds but removes the later
occurrence as well — the in-place deletion loop shifts the backing
array while the range loop keeps walking the original indices. -/
theorem duplicate_metadata_key_counterexample :
    loadEncryptedFile
        ("\x7b\"sops\": \x7b\"version\": \"3.7.3\", \"mac\": \"M\"\x7d, \"x\": 1, " ++
         "\"sops\": \x7b\"version\": \"9\"\x7d, \"y\": 2\x7d").toList =
      .ok ⟨[[(GoVal.str "x", GoVal.num ['1']), (GoVal.str "y", GoVal.num ['2'])]],
        ⟨"3.7.3", "M"⟩⟩ := rfl


theorem decodableItems_append {xs ys : List TreeItem}
    (hx : decodableItems xs = true) (hy : decodableItems ys = true) :
    decodableItems (xs ++ ys) = true := by
  induction xs with
  | nil => simpa using hy
  | cons it rest ih =>
    obtain ⟨k, v⟩ := it
    simp only [decodableItems, Bool.and_eq_true] at hx ⊢
    exact ⟨⟨hx.1.1, hx.1.2⟩, ih hx.2⟩

theorem lookupKeyJ_none_of_noSops (b : TreeBranch) (h : noSopsKey b = true) :
    lookupKeyJ SopsMetadataKey b = none := by
  induction b with
  | nil => rfl
  | cons it rest ih =>
    obtain ⟨k, v⟩ := it
    simp only [noSopsKey, Bool.and_eq_true] at h
    cases k with
    | str s =>
      have hne : ¬ (s = SopsMetadataKey) := by simpa [keyEqualsStr] using h.1
      simp [lookupKeyJ, hne, ih h.2]
    | num lit => simpa [lookupKeyJ] using ih h.2
    | bool b2 => simpa [lookupKeyJ] using ih h.2
    | null => simpa [lookupKeyJ] using ih h.2
    | branch i2 => simpa [lookupKeyJ] using ih h.2
    | arr e2 => simpa [lookupKeyJ] using ih h.2
    | comment c2 => simpa [lookupKeyJ] using ih h.2

theorem lookupKeyJ_append_none (k : String) (xs ys : List TreeItem)
    (h : lookupKeyJ k xs = none) : lookupKeyJ k (xs ++ ys) = lookupKeyJ k ys := by
  induction xs with
  | nil => rfl
  | cons it rest ih =>
    obtain ⟨kk, v⟩ := it
    cases kk with
    | str s =>
      by_cases hs : s = k
      · simp [lookupKeyJ, hs] at h
      · have h2 : lookupKeyJ k rest = none := by simpa [lookupKeyJ, hs] using h
        simp [lookupKeyJ, hs, ih h2]
    | num lit => simpa [lookupKeyJ] using ih (by simpa [lookupKeyJ] using h)
    | bool b2 => simpa [lookupKeyJ] using ih (by simpa [lookupKeyJ] using h)
    | null => simpa [lookupKeyJ] using ih (by simpa [lookupKeyJ] using h)
    | branch i2 => simpa [lookupKeyJ] using ih (by simpa [lookupKeyJ] using h)
    | arr e2 => simpa [lookupKeyJ] using ih (by simpa [lookupKeyJ] using h)
    | comment c2 => simpa [lookupKeyJ] using ih (by simpa [lookupKeyJ] using h)

/-- Claim C1: for every Branch built from string-keyed Items whose
values lie in the decoder's image (in particular no Comment values, so
the claim's "modulo removal of Comment-keyed Items" clause is vacuous,
and number scalars carry literal text of the scanner's shape), decoding
the bytes produced by encoding the Branch yields the identical Branch:
the same Items in the identical order with equal Key/Value pairs.  No
uniqueness of keys is even needed. -/
theorem decode_encode_roundtrip (B : TreeBranch) (h : decodableItems B = true) :
    ∃ bytes, encodeTree B = GoResult.ok bytes ∧ treeBranchFromJSON bytes = .ok B := by
  refine ⟨renderVal wCompact 0 (.branch B), encodeTree_render B h, ?_⟩
  have hp := jparse_render (.branch B) wCompact []
    (by simpa [decodableV] using h) wsOK_wCompact rfl
  rw [List.append_nil] at hp
  exact treeBranchFromJSON_of_jparse hp

/-- Witness for C1 at a concrete two-item branch. -/
theorem decode_encode_roundtrip_witness :
    decodableItems [(GoVal.str "a", GoVal.num ['1']), (GoVal.str "b", GoVal.str "x")] = true ∧
    (∃ bytes,
      encodeTree [(GoVal.str "a", GoVal.num ['1']), (GoVal.str "b", GoVal.str "x")] =
        GoResult.ok bytes ∧
      treeBranchFromJSON bytes =
        .ok [(GoVal.str "a", GoVal.num ['1']), (GoVal.str "b", GoVal.str "x")]) := by
  have hdec : decodableItems
      [(GoVal.str "a", GoVal.num ['1']), (GoVal.str "b", GoVal.str "x")] = true := by
    simp +decide [decodableItems, decodableV, goodNumLit, goodNumCore, fracExpOk, expOk,
      takeDigits]
  exact ⟨hdec, decode_encode_roundtrip _ hdec⟩

/-- C7 counterexample: Merge-then-encode silently drops a Comment-keyed
Item of the Document, so splitting after merging is not the identity on
such Documents: the returned body Branch is empty. -/
theorem split_merge_comment_counterexample :
    ∃ out, emitEncryptedFile (-1)
        ⟨[[(GoVal.comment "c", GoVal.str "v")]], ⟨"3.0.0", "M"⟩⟩ = .ok out ∧
      loadEncryptedFile out = .ok ⟨[[]], ⟨"3.0.0", "M"⟩⟩ :=
  ⟨_, rfl, rfl⟩

/-- Claim C7 (amended): for Documents whose sole Branch is built from
string-keyed decoder-image Items (no Comment keys: the encoder drops
those, see the counterexample) and carries no reserved metadata key,
splitting after merging is the identity for every accepted indent
configuration: EmitEncryptedFile appends the metadata Item at the tail
and encodes, and LoadEncryptedFile on those bytes returns exactly the
original Document and Metadata. -/
theorem split_merge_identity (b : TreeBranch) (M : Metadata) (cfg : Int)
    (hdec : decodableItems b = true) (hnos : noSopsKey b = true) (hcfg : -1 ≤ cfg) :
    ∃ out, emitEncryptedFile cfg ⟨[b], M⟩ = .ok out ∧
      loadEncryptedFile out = .ok ⟨[b], M⟩ := by
  have hdec2 : decodableItems
      (b ++ [(GoVal.str SopsMetadataKey, metadataFromInternal M)]) = true :=
    decodableItems_append hdec
      (by simp [decodableItems, decodableV, metadataFromInternal])
  have hwu : wsOnlyL (if cfg > -1 then List.replicate cfg.toNat ' ' else ['\t']) = true := by
    by_cases hc : cfg > -1
    · simp [hc, wsOnlyL_replicate]
    · simp +decide [hc]
  have hjp1 : jparse (renderVal wCompact 0
      (.branch (b ++ [(GoVal.str SopsMetadataKey, metadataFromInternal M)]))) =
      .ok (.branch (b ++ [(GoVal.str SopsMetadataKey, metadataFromInternal M)])) := by
    have := jparse_render
      (.branch (b ++ [(GoVal.str SopsMetadataKey, metadataFromInternal M)])) wCompact []
      (by simpa [decodableV] using hdec2) wsOK_wCompact rfl
    simpa using this
  have hreind : reindentJSON cfg (renderVal wCompact 0
      (.branch (b ++ [(GoVal.str SopsMetadataKey, metadataFromInternal M)]))) =
      .ok (renderVal (wIndent (if cfg > -1 then List.replicate cfg.toNat ' ' else ['\t'])) 0
        (.branch (b ++ [(GoVal.str SopsMetadataKey, metadataFromInternal M)]))) := by
    unfold reindentJSON jsonIndentModel
    by_cases hc : cfg > -1
    · simp +decide [hc, hjp1]
    · have hceq : cfg = -1 := by omega
      subst hceq
      simp +decide [hjp1]
  have hemit : emitEncryptedFile cfg ⟨[b], M⟩ =
      .ok (renderVal (wIndent (if cfg > -1 then List.replicate cfg.toNat ' ' else ['\t'])) 0
        (.branch (b ++ [(GoVal.str SopsMetadataKey, metadataFromInternal M)])) ++ ['\n']) := by
    rw [show emitEncryptedFile cfg ⟨[b], M⟩ =
      (match jsonFromTreeBranch cfg
          (b ++ [(GoVal.str SopsMetadataKey, metadataFromInternal M)]) with
       | .ok out => .ok (out ++ ['\n'])
       | .error e => .error (.wrap "Error marshaling to json" e)
       | .panicked m => .panicked m) from rfl]
    unfold jsonFromTreeBranch
    simp only [encodeTree_render _ hdec2, hreind]
  refine ⟨_, hemit, ?_⟩
  have hjp2 : jparse (renderVal
      (wIndent (if cfg > -1 then List.replicate cfg.toNat ' ' else ['\t'])) 0
      (.branch (b ++ [(GoVal.str SopsMetadataKey, metadataFromInternal M)])) ++ ['\n']) =
      .ok (.branch (b ++ [(GoVal.str SopsMetadataKey, metadataFromInternal M)])) :=
    jparse_render _ _ ['\n'] (by simpa [decodableV] using hdec2)
      (wsOK_wIndent _ hwu) (by decide)
  have hlook : lookupKeyJ SopsMetadataKey
      (b ++ [(GoVal.str SopsMetadataKey, metadataFromInternal M)]) =
      some (metadataFromInternal M) := by
    rw [lookupKeyJ_append_none _ _ _ (lookupKeyJ_none_of_noSops b hnos)]
    simp [lookupKeyJ]
  have htb : treeBranchFromJSON (renderVal
      (wIndent (if cfg > -1 then List.replicate cfg.toNat ' ' else ['\t'])) 0
      (.branch (b ++ [(GoVal.str SopsMetadataKey, metadataFromInternal M)])) ++ ['\n']) =
      .ok (b ++ [(GoVal.str SopsMetadataKey, metadataFromInternal M)]) :=
    treeBranchFromJSON_of_jparse hjp2
  have hdisc : discardSopsMetadata
      (b ++ [(GoVal.str SopsMetadataKey, metadataFromInternal M)]) = .ok b := by
    have := discardSopsMetadata_single b [] (metadataFromInternal M) hnos rfl
    simpa using this
  unfold loadEncryptedFile unmarshalSopsFile
  simp only [hjp2, hlook]
  simp only [metadataFromInternal] at htb hdisc ⊢
  simp +decide [lookupKeyJ, metadataToInternal, htb, hdisc]

/-- Witness for C7 (amended) at a concrete one-item document. -/
theorem split_merge_identity_witness :
    ∃ out, emitEncryptedFile (-1)
        ⟨[[(GoVal.str "x", GoVal.null)]], ⟨"3.0.0", "M"⟩⟩ = .ok out ∧
      loadEncryptedFile out = .ok ⟨[[(GoVal.str "x", GoVal.null)]], ⟨"3.0.0", "M"⟩⟩ :=
  split_merge_identity [(GoVal.str "x", GoVal.null)] ⟨"3.0.0", "M"⟩ (-1)
    (by simp [decodableItems, decodableV]) (by simp +decide [noSopsKey, keyEqualsStr])
    (by decide)

end SopsJson
